import Mathlib

/-!
A verification development for the depsaw dependency-analysis engine.

The Rust sources are shallowly embedded: hash maps become association
lists (`List (String × _)`, first match wins, mirroring unique-key maps),
`HashSet String` becomes `Finset String`, recursion over the (not
provably acyclic) dependency graph takes an explicit fuel argument, and
Rust panics (`unwrap` on `None`, out-of-bounds indexing/slicing) are a
dedicated `crash` outcome, distinct from `Result::Err`.
-/


/-- Commit identifiers form sets with no further structure
(`HashSet<String>` in the source). -/
abbrev CommitSet := Finset String

/-- `bs` is a prefix of `as` (labels are ASCII, so Rust's byte-level
`starts_with` coincides with this character-level test). -/
def charsStartWith : List Char → List Char → Bool
  | _, [] => true
  | [], _ :: _ => false
  | a :: as, b :: bs => a == b && charsStartWith as bs

/-- Rust `str::starts_with` on ASCII label strings. -/
def strStartsWith (s p : String) : Bool := charsStartWith s.data p.data

/-- Rust `str::ends_with` on ASCII label strings. -/
def strEndsWith (s p : String) : Bool := charsStartWith s.data.reverse p.data.reverse

/-- Rust byte slice `&s[..n]` on ASCII strings (the caller checks bounds). -/
def strTake (s : String) (n : Nat) : String := ⟨s.data.take n⟩

/-- Rust byte slice `&s[n..]` on ASCII strings (the caller checks bounds). -/
def strDrop (s : String) (n : Nat) : String := ⟨s.data.drop n⟩

/-- Rust `str::len` on ASCII strings. -/
def strLength (s : String) : Nat := s.data.length

/-- Split a character list at every occurrence of `c` (Rust
`str::split(c)`: the empty string yields `[""]`, adjacent separators
yield empty pieces). -/
def splitChars (c : Char) : List Char → List (List Char)
  | [] => [[]]
  | x :: xs =>
    match splitChars c xs with
    | [] => [[x]]
    | h :: t => if x == c then [] :: h :: t else (x :: h) :: t

/-- Rust `source_file.split(':')` collected to a vector of strings. -/
def splitOnColon (s : String) : List String := (splitChars ':' s.data).map String.mk

/-- `bazel.rs`: `pub struct Entry { dep_targets: Vec<String>, source_files: Vec<String> }`. -/
structure Entry where
  dep_targets : List String
  source_files : List String
deriving DecidableEq

/-- `bazel.rs`: `pub struct BazelDependencyGraph { rules_by_label: HashMap<String, Entry> }`. -/
structure BazelDependencyGraph where
  rules_by_label : List (String × Entry)
deriving DecidableEq

/-- `git.rs`: `pub struct GitFile { commit_history: HashSet<String> }`. -/
structure GitFile where
  commit_history : CommitSet
deriving DecidableEq

/-- `git.rs`: `pub struct GitRepo { files: HashMap<String, GitFile> }`. -/
structure GitRepo where
  files : List (String × GitFile)
deriving DecidableEq

/-- `trigger_scores.rs` `struct Target`: the per-label node carrying the
reverse-edge registry.  In Rust `immediate_dependents` is
`Vec<Rc<RwLock<Target>>>`; every such `Rc` points at the unique node of
some label, so we record the dependents by label (one entry per pushed
edge, duplicates kept, as in the source). -/
structure Target where
  name : String
  rebuilds : Nat
  immediate_dependents : List String
deriving DecidableEq

/-- `trigger_scores.rs` `struct ResolvedTarget` (the `commits` field is the
`specific_commits` set of the spec). -/
structure ResolvedTarget where
  name : String
  rebuilds : Nat
  immediate_dependents : Nat
  total_dependents : Nat
  score : Nat
  commits : CommitSet
deriving DecidableEq

/-- The two error species produced by the engine
(`anyhow!("target .. not found in dependency graph")` and
`anyhow!("target .. not found in commits_specific_to_target")`). -/
inductive TSError where
  | notFound (label : String)
  | inconsistent (label : String)
deriving DecidableEq

/-- Outcome of running embedded Rust code: a returned value, a returned
`Err`, a panic (`crash`), or fuel exhaustion of the embedding (`nofuel`,
which has no Rust counterpart: it marks recursion deeper than the fuel). -/
inductive RResult (α : Type) where
  | ok (val : α)
  | err (e : TSError)
  | crash (msg : String)
  | nofuel
deriving DecidableEq

/-- The mutable state threaded through `calculate_trigger_scores_map_inner`:
the three `&mut HashMap` arguments of the Rust function. -/
structure TriggerState where
  commits_by_target : List (String × CommitSet)
  commits_specific_to_target : List (String × CommitSet)
  score_by_target : List (String × Target)
deriving DecidableEq

/-- `trigger_scores.rs` lines 151-152: `source_file.split(':')` followed by
`&format!("{}/{}", parts[0], parts[1])[2..]`.  `none` is the Rust panic:
indexing `parts[1]` out of bounds when the label has no `:`, or slicing
`[2..]` past the end of a string of byte length `< 2`.  (Labels are ASCII
in practice, so character positions coincide with Rust's byte positions.) -/
def relative_path_of_source_file (source_file : String) : Option String :=
  match splitOnColon source_file with
  | p0 :: p1 :: _ =>
    let joined := p0 ++ "/" ++ p1
    if 2 ≤ strLength joined then some (strDrop joined 2) else none
  | _ => none

/-- `trigger_scores.rs` lines 145-157: collect commits touching the
normalized source files; `@`-prefixed labels are skipped, and a path
missing from `repo.files` contributes nothing.  `none` is the panic from
`relative_path_of_source_file`. -/
def commits_touching_files (repo : GitRepo) : List String → Option CommitSet
  | [] => some ∅
  | sf :: rest =>
    if strStartsWith sf "@" then commits_touching_files repo rest
    else
      match relative_path_of_source_file sf with
      | none => none
      | some path =>
        (commits_touching_files repo rest).map
          (fun s => (match repo.files.lookup path with
                     | some f => f.commit_history
                     | none => ∅) ∪ s)

/-- `trigger_scores.rs` line 142-143:
`score_by_target.get(dep_target).unwrap().write().unwrap()
   .immediate_dependents.push(target_rc.clone())`.
`none` is the `unwrap` panic when `dep_target` has no entry. -/
def pushEdge (parent : String) (t : Target) : Target :=
  { t with immediate_dependents := t.immediate_dependents ++ [parent] }

def pushDependent (m : List (String × Target)) (dep parent : String) :
    Option (List (String × Target)) :=
  if (m.lookup dep).isSome then
    some (m.map (fun p => if p.1 = dep then (p.1, pushEdge parent p.2) else p))
  else none

/-- The `for dep_target in rule.dep_targets` loop of
`calculate_trigger_scores_map_inner`: recurse (via `step`, the inner
computation at the remaining fuel) into each dependency, extend the
running commit union, and push the current target onto the dependency's
`immediate_dependents` (one edge per visit, recorded even on a cache
hit). -/
def trigger_scores_deps_loop
    (step : String → TriggerState → RResult (CommitSet × TriggerState)) :
    String → List String → TriggerState → CommitSet →
    RResult (CommitSet × TriggerState)
  | _, [], st, acc => .ok (acc, st)
  | parent, dep :: rest, st, acc =>
    match step dep st with
    | .ok (cs, st1) =>
      match pushDependent st1.score_by_target dep parent with
      | some m =>
        trigger_scores_deps_loop step parent rest
          { st1 with score_by_target := m } (acc ∪ cs)
      | none => .crash "called Option unwrap on a None value"
    | .err e => .err e
    | .crash msg => .crash msg
    | .nofuel => .nofuel

/-- `trigger_scores.rs` lines 112-165, `calculate_trigger_scores_map_inner`:
memoized post-order traversal computing the transitive commit set of
`target_name` while recording reverse edges. -/
def calculate_trigger_scores_map_inner (repo : GitRepo) (g : BazelDependencyGraph) :
    Nat → String → TriggerState → RResult (CommitSet × TriggerState)
  | 0, _, _ => .nofuel
  | fuel + 1, target_name, st =>
    match st.commits_by_target.lookup target_name with
    | some commits => .ok (commits, st)
    | none =>
      match g.rules_by_label.lookup target_name with
      | none => .err (.notFound target_name)
      | some rule =>
        match trigger_scores_deps_loop
            (fun dep st1 => calculate_trigger_scores_map_inner repo g fuel dep st1)
            target_name rule.dep_targets st ∅ with
        | .ok (all_commits, st1) =>
          match commits_touching_files repo rule.source_files with
          | none => .crash "byte index out of bounds of source file label"
          | some commits_touching =>
            let all_commits2 := all_commits ∪ commits_touching
            .ok (all_commits2,
              { commits_by_target := (target_name, all_commits2) :: st1.commits_by_target,
                commits_specific_to_target :=
                  (target_name, commits_touching) :: st1.commits_specific_to_target,
                score_by_target :=
                  (target_name,
                    { name := target_name, rebuilds := all_commits2.card,
                      immediate_dependents := [] }) :: st1.score_by_target })
        | .err e => .err e
        | .crash msg => .crash msg
        | .nofuel => .nofuel

/-- Look a target up in the reverse-edge registry by label; every `Rc`
stored in an `immediate_dependents` list denotes the unique node of its
label, which (whenever this function is reached) is present in
`score_by_target`, so the default is never consulted in a run the Rust
program completes. -/
def findTarget (m : List (String × Target)) (name : String) : Target :=
  match m.lookup name with
  | some t => t
  | none => { name := name, rebuilds := 0, immediate_dependents := [] }

/-- The `for dependent in target.immediate_dependents` loop of
`inner_recursively_calculate_total_dependents`; `visit` is the recursive
call at the remaining fuel. -/
def total_dependents_loop (visit : Target → List String → List String)
    (m : List (String × Target)) :
    List String → List String → List String
  | [], visited => visited
  | d :: rest, visited =>
    if d ∈ visited then total_dependents_loop visit m rest visited
    else
      total_dependents_loop visit m rest (visit (findTarget m d) (d :: visited))

/-- `trigger_scores.rs` lines 173-186,
`inner_recursively_calculate_total_dependents`: walk the reverse-edge
graph, inserting each not-yet-visited dependent into `visited` and
recursing.  The Rust function also accumulates an (ignored) running
total; the caller only reads the final `visited` set, which is what we
return.  Fuel only guards the embedding: the visited set strictly grows
before every recursive descent, so `m.length + 1` fuel always suffices. -/
def inner_recursively_calculate_total_dependents (m : List (String × Target)) :
    Nat → Target → List String → List String
  | 0, _, visited => visited
  | fuel + 1, t, visited =>
    total_dependents_loop
      (fun t1 v1 => inner_recursively_calculate_total_dependents m fuel t1 v1)
      m t.immediate_dependents visited

/-- `trigger_scores.rs` lines 167-171, `recursively_calculate_total_dependents`:
returns `visited.len()` — the number of distinct labels visited along
reverse edges, the starting target itself never being inserted. -/
def recursively_calculate_total_dependents (m : List (String × Target)) (t : Target) : Nat :=
  (inner_recursively_calculate_total_dependents m (m.length + 1) t []).length

/-- `trigger_scores.rs` lines 87-108: the second pass of
`calculate_trigger_scores`, turning each `score_by_target` entry into a
`ResolvedTarget`; `score = rebuilds * (total_dependents + 1)`, and a
label missing from `commits_specific_to_target` is the
`Inconsistent`-class error. -/
def trigger_scores_second_pass (st : TriggerState) :
    List (String × Target) → RResult (List (String × ResolvedTarget))
  | [] => .ok []
  | (_, t) :: rest =>
    let total_dependents := recursively_calculate_total_dependents st.score_by_target t
    let score := t.rebuilds * (total_dependents + 1)
    match st.commits_specific_to_target.lookup t.name with
    | none => .err (.inconsistent t.name)
    | some commits =>
      match trigger_scores_second_pass st rest with
      | .ok res =>
        .ok ((t.name,
          { name := t.name, rebuilds := t.rebuilds,
            immediate_dependents := t.immediate_dependents.length,
            total_dependents := total_dependents, score := score,
            commits := commits }) :: res)
      | .err e => .err e
      | .crash msg => .crash msg
      | .nofuel => .nofuel

/-- The `for (t, _) in deps_graph.rules_by_label.iter()` wildcard loop of
`calculate_trigger_scores`: run the inner computation once per seed,
sharing all caches. -/
def trigger_scores_run_seeds (repo : GitRepo) (g : BazelDependencyGraph) (fuel : Nat) :
    List String → TriggerState → RResult TriggerState
  | [], st => .ok st
  | l :: rest, st =>
    match calculate_trigger_scores_map_inner repo g fuel l st with
    | .ok (_, st1) => trigger_scores_run_seeds repo g fuel rest st1
    | .err e => .err e
    | .crash msg => .crash msg
    | .nofuel => .nofuel

/-- `trigger_scores.rs` lines 52-110, `calculate_trigger_scores`.  A seed
ending in `...` strips its last FOUR characters (`target[..target.len() - 4]`)
to obtain the prefix; on a seed shorter than four characters that byte
slice panics (`crash`).  Non-wildcard seeds run the inner computation
once.  Either way the second pass then resolves every computed target. -/
def calculate_trigger_scores (repo : GitRepo) (g : BazelDependencyGraph)
    (fuel : Nat) (target : String) : RResult (List (String × ResolvedTarget)) :=
  let st0 : TriggerState := ⟨[], [], []⟩
  if strEndsWith target "..." then
    if strLength target < 4 then .crash "byte index out of bounds of wildcard seed"
    else
      let pfx := strTake target (strLength target - 4)
      match trigger_scores_run_seeds repo g fuel
          (((g.rules_by_label.map Prod.fst).filter (fun t => strStartsWith t pfx))) st0 with
      | .ok st => trigger_scores_second_pass st st.score_by_target
      | .err e => .err e
      | .crash msg => .crash msg
      | .nofuel => .nofuel
  else
    match calculate_trigger_scores_map_inner repo g fuel target st0 with
    | .ok (_, st) => trigger_scores_second_pass st st.score_by_target
    | .err e => .err e
    | .crash msg => .crash msg
    | .nofuel => .nofuel

/-- `most_unique_triggers.rs`: `pub struct Dependency { name, score }`. -/
structure Dependency where
  name : String
  score : Nat
deriving DecidableEq

/-- The comparator `|a, b| b.score.cmp(&a.score)` used by
`deps.sort_by`: `a` precedes `b` when `b.score ≤ a.score` (descending). -/
def descendingByScore (a b : Dependency) : Prop := b.score ≤ a.score

instance : DecidableRel descendingByScore := fun a b => Nat.decLe b.score a.score

instance : IsTotal Dependency descendingByScore :=
  ⟨fun a b => Nat.le_total b.score a.score⟩

instance : IsTrans Dependency descendingByScore :=
  ⟨fun _ _ _ hab hbc => Nat.le_trans hbc hab⟩

/-- The `for dep in &rule.dep_targets` loop of the nested `visit_deps` of
`find_duplicate_deps` (`most_unique_triggers.rs` lines 81-87): Rust's
`if !seen.insert(dep) { duplicates.insert(dep); } else { visit(dep)? }`;
`step` is the recursive visit at the remaining fuel, taking the updated
`seen` (with `dep` inserted) and `duplicates`. -/
def find_duplicate_deps_loop
    (step : String → Finset String → Finset String →
       RResult (Finset String × Finset String)) :
    List String → Finset String → Finset String →
    RResult (Finset String × Finset String)
  | [], seen, duplicates => .ok (seen, duplicates)
  | dep :: rest, seen, duplicates =>
    if dep ∈ seen then
      find_duplicate_deps_loop step rest seen (insert dep duplicates)
    else
      match step dep (insert dep seen) duplicates with
      | .ok (seen1, duplicates1) => find_duplicate_deps_loop step rest seen1 duplicates1
      | .err e => .err e
      | .crash msg => .crash msg
      | .nofuel => .nofuel

/-- The nested `visit_deps` of `find_duplicate_deps`
(`most_unique_triggers.rs` lines 70-89): look the current label up
(`NotFound` error when absent) and process its dependency list. -/
def find_duplicate_deps_visit (g : BazelDependencyGraph) :
    Nat → String → Finset String → Finset String →
    RResult (Finset String × Finset String)
  | 0, _, _, _ => .nofuel
  | fuel + 1, current, seen, duplicates =>
    match g.rules_by_label.lookup current with
    | none => .err (.notFound current)
    | some rule =>
      find_duplicate_deps_loop
        (fun d s dp => find_duplicate_deps_visit g fuel d s dp)
        rule.dep_targets seen duplicates

/-- `most_unique_triggers.rs` lines 66-93, `find_duplicate_deps`: labels
reached through two or more edges of the seed's dependency closure. -/
def find_duplicate_deps (g : BazelDependencyGraph) (fuel : Nat) (target : String) :
    RResult (Finset String) :=
  match find_duplicate_deps_visit g fuel target ∅ ∅ with
  | .ok (_, duplicates) => .ok duplicates
  | .err e => .err e
  | .crash msg => .crash msg
  | .nofuel => .nofuel

/-- The `for dep in &rule.dep_targets` loop of the nested `visit_deps` of
`get_unique_deps` (`most_unique_triggers.rs` lines 120-122); `step` is
the recursive visit at the remaining fuel. -/
def get_unique_deps_loop (step : String → Finset String → RResult (Finset String)) :
    List String → Finset String → RResult (Finset String)
  | [], unique_deps => .ok unique_deps
  | dep :: rest, unique_deps =>
    match step dep unique_deps with
    | .ok unique_deps1 => get_unique_deps_loop step rest unique_deps1
    | .err e => .err e
    | .crash msg => .crash msg
    | .nofuel => .nofuel

/-- The nested `visit_deps` of `get_unique_deps`
(`most_unique_triggers.rs` lines 103-124): stop without descending at a
duplicate, otherwise insert the current label and visit its
dependencies.  (Rust inserts before the rule lookup; on a failed lookup
the whole call errors and the set is discarded, so inserting in the
success branch is observationally the same.) -/
def get_unique_deps_visit (g : BazelDependencyGraph) (duplicate_deps : Finset String) :
    Nat → String → Finset String → RResult (Finset String)
  | 0, _, _ => .nofuel
  | fuel + 1, current, unique_deps =>
    if current ∈ duplicate_deps then .ok unique_deps
    else
      match g.rules_by_label.lookup current with
      | none => .err (.notFound current)
      | some rule =>
        get_unique_deps_loop
          (fun d acc => get_unique_deps_visit g duplicate_deps fuel d acc)
          rule.dep_targets (insert current unique_deps)

/-- `most_unique_triggers.rs` lines 96-128, `get_unique_deps`. -/
def get_unique_deps (g : BazelDependencyGraph) (fuel : Nat) (dep : String)
    (duplicate_deps : Finset String) : RResult (Finset String) :=
  get_unique_deps_visit g duplicate_deps fuel dep ∅

/-- The `for dep in &target_rule.dep_targets` loop of
`most_unique_triggers` (lines 36-57): skip duplicated immediate
dependencies, otherwise extract the unique subtree, union the
`commits` sets its labels have in the score table, and record a
candidate whose score is the size of that union. -/
def most_unique_triggers_loop (g : BazelDependencyGraph) (fuel : Nat)
    (scores_by_target : List (String × ResolvedTarget)) (duplicate_deps : Finset String) :
    List String → RResult (List Dependency)
  | [] => .ok []
  | dep :: rest =>
    if dep ∈ duplicate_deps then most_unique_triggers_loop g fuel scores_by_target duplicate_deps rest
    else
      match get_unique_deps g fuel dep duplicate_deps with
      | .ok unique_deps =>
        let commits : CommitSet := unique_deps.biUnion (fun l =>
          match scores_by_target.lookup l with
          | some dep_score => dep_score.commits
          | none => ∅)
        match most_unique_triggers_loop g fuel scores_by_target duplicate_deps rest with
        | .ok deps => .ok ({ name := dep, score := commits.card } :: deps)
        | .err e => .err e
        | .crash msg => .crash msg
        | .nofuel => .nofuel
      | .err e => .err e
      | .crash msg => .crash msg
      | .nofuel => .nofuel

/-- `most_unique_triggers.rs` lines 16-63, `most_unique_triggers`: score
the removal candidates among the seed's immediate dependencies and sort
them by descending score (`sort_by(|a, b| b.score.cmp(&a.score))`, a
stable sort, modeled by the stable `insertionSort`). -/
def most_unique_triggers (repo : GitRepo) (g : BazelDependencyGraph)
    (fuel : Nat) (target : String) : RResult (List Dependency) :=
  match calculate_trigger_scores repo g fuel target with
  | .ok scores_by_target =>
    match g.rules_by_label.lookup target with
    | none => .err (.notFound target)
    | some target_rule =>
      match find_duplicate_deps g fuel target with
      | .ok duplicate_deps =>
        match most_unique_triggers_loop g fuel scores_by_target duplicate_deps
            target_rule.dep_targets with
        | .ok deps => .ok (List.insertionSort descendingByScore deps)
        | .err e => .err e
        | .crash msg => .crash msg
        | .nofuel => .nofuel
      | .err e => .err e
      | .crash msg => .crash msg
      | .nofuel => .nofuel
  | .err e => .err e
  | .crash msg => .crash msg
  | .nofuel => .nofuel

/-- `analyzer.rs` `struct Target` (the older engine): dependents are
`Vec<Rc<Target>>` without interior mutability; as in the newer engine we
record each pushed dependent by its label. -/
structure ATarget where
  name : String
  rebuilds : Nat
  immediate_dependents : List String
  score : Nat
deriving DecidableEq

/-- `analyzer.rs` `struct ResolvedTarget` (no `commits` field). -/
structure AResolvedTarget where
  name : String
  rebuilds : Nat
  immediate_dependents : Nat
  total_dependents : Nat
  score : Nat
deriving DecidableEq

/-- The two `&mut HashMap` arguments of
`analyzer::calculate_trigger_scores_map_inner`. -/
structure AState where
  commits_by_target : List (String × CommitSet)
  score_by_target : List (String × ATarget)
deriving DecidableEq

/-- `analyzer.rs` lines 128-135:
`score_by_target.entry(dep_target).and_modify(|t| Rc::get_mut(t).unwrap()
  .immediate_dependents.push(target_rc.clone()))`.
The closure runs only when the entry exists; the `Bool` reports whether
it ran, i.e. whether a clone of the parent's `Rc` was stored.  (The
`Rc::get_mut(t)` inside the closure never fails: an entry reaches
`score_by_target` only after passing line 151 with an unshared `Rc`,
which requires it to have pushed no clones, and nothing else clones it.) -/
def analyzerPush (m : List (String × ATarget)) (dep parent : String) :
    List (String × ATarget) × Bool :=
  if (m.lookup dep).isSome then
    (m.map (fun p =>
      if p.1 = dep then
        (p.1, { p.2 with immediate_dependents := p.2.immediate_dependents ++ [parent] })
      else p), true)
  else (m, false)

/-- The `for dep_target in rule.dep_targets` loop of
`analyzer::calculate_trigger_scores_map_inner` (lines 120-136); the
`cloned` flag records whether some `and_modify` stored a clone of the
current target's `Rc`. -/
def analyzer_deps_loop (step : String → AState → RResult (CommitSet × AState)) :
    String → List String → AState → CommitSet → Bool →
    RResult (CommitSet × AState × Bool)
  | _, [], st, acc, cloned => .ok (acc, st, cloned)
  | parent, dep :: rest, st, acc, cloned =>
    match step dep st with
    | .ok (cs, st1) =>
      match analyzerPush st1.score_by_target dep parent with
      | (m, fired) =>
        analyzer_deps_loop step parent rest
          { st1 with score_by_target := m } (acc ∪ cs) (cloned || fired)
    | .err e => .err e
    | .crash msg => .crash msg
    | .nofuel => .nofuel

/-- `analyzer.rs` lines 99-156, `calculate_trigger_scores_map_inner`.
After the dependency loop and the source-file scan, line 151 runs
`Rc::get_mut(&mut target_rc).unwrap()`: it panics (`crash`) whenever a
clone of `target_rc` was pushed into some dependency's dependents list
during the loop — that is, whenever any `and_modify` fired. -/
def analyzer_calculate_trigger_scores_map_inner (repo : GitRepo)
    (g : BazelDependencyGraph) :
    Nat → String → AState → RResult (CommitSet × AState)
  | 0, _, _ => .nofuel
  | fuel + 1, target_name, st =>
    match st.commits_by_target.lookup target_name with
    | some commits => .ok (commits, st)
    | none =>
      match g.rules_by_label.lookup target_name with
      | none => .err (.notFound target_name)
      | some rule =>
        match analyzer_deps_loop
            (fun dep st1 => analyzer_calculate_trigger_scores_map_inner repo g fuel dep st1)
            target_name rule.dep_targets st ∅ false with
        | .ok (all_commits, st1, cloned) =>
          match commits_touching_files repo rule.source_files with
          | none => .crash "byte index out of bounds of source file label"
          | some commits_touching =>
            let all_commits2 := all_commits ∪ commits_touching
            if cloned then .crash "Rc get_mut unwrap on a shared Rc"
            else
              .ok (all_commits2,
                { commits_by_target := (target_name, all_commits2) :: st1.commits_by_target,
                  score_by_target :=
                    (target_name,
                      { name := target_name, rebuilds := all_commits2.card,
                        immediate_dependents := [], score := 0 }) :: st1.score_by_target })
        | .err e => .err e
        | .crash msg => .crash msg
        | .nofuel => .nofuel

/-- View an `analyzer.rs` reverse-edge registry through the newer
engine's `Target` shape, for sharing
`recursively_calculate_total_dependents` (which reads only `name` and
`immediate_dependents`, identical in both). -/
def analyzerDependentsView (m : List (String × ATarget)) : List (String × Target) :=
  m.map (fun p => (p.1, { name := p.2.name, rebuilds := p.2.rebuilds,
                          immediate_dependents := p.2.immediate_dependents }))

/-- `analyzer.rs` lines 82-95: the second pass of
`calculate_trigger_scores_map`; note `score = rebuilds *
immediate_dependents.len()` here, unlike the newer engine. -/
def analyzer_second_pass (st : AState) :
    List (String × ATarget) → List (String × AResolvedTarget)
  | [] => []
  | (_, t) :: rest =>
    let score := t.rebuilds * t.immediate_dependents.length
    let total_dependents :=
      recursively_calculate_total_dependents (analyzerDependentsView st.score_by_target)
        { name := t.name, rebuilds := t.rebuilds,
          immediate_dependents := t.immediate_dependents }
    (t.name,
      { name := t.name, rebuilds := t.rebuilds,
        immediate_dependents := t.immediate_dependents.length,
        total_dependents := total_dependents, score := score }) ::
      analyzer_second_pass st rest

/-- The wildcard loop of `analyzer::calculate_trigger_scores_map`
(lines 57-70). -/
def analyzer_run_seeds (repo : GitRepo) (g : BazelDependencyGraph) (fuel : Nat) :
    List String → AState → RResult AState
  | [], st => .ok st
  | l :: rest, st =>
    match analyzer_calculate_trigger_scores_map_inner repo g fuel l st with
    | .ok (_, st1) => analyzer_run_seeds repo g fuel rest st1
    | .err e => .err e
    | .crash msg => .crash msg
    | .nofuel => .nofuel

/-- `analyzer.rs` lines 50-97, `calculate_trigger_scores_map`: same
wildcard handling as the newer engine (strip FOUR characters), then the
analyzer second pass, which cannot fail. -/
def calculate_trigger_scores_map (repo : GitRepo) (g : BazelDependencyGraph)
    (fuel : Nat) (target : String) : RResult (List (String × AResolvedTarget)) :=
  let st0 : AState := ⟨[], []⟩
  if strEndsWith target "..." then
    if strLength target < 4 then .crash "byte index out of bounds of wildcard seed"
    else
      let pfx := strTake target (strLength target - 4)
      match analyzer_run_seeds repo g fuel
          (((g.rules_by_label.map Prod.fst).filter (fun t => strStartsWith t pfx))) st0 with
      | .ok st => .ok (analyzer_second_pass st st.score_by_target)
      | .err e => .err e
      | .crash msg => .crash msg
      | .nofuel => .nofuel
  else
    match analyzer_calculate_trigger_scores_map_inner repo g fuel target st0 with
    | .ok (_, st) => .ok (analyzer_second_pass st st.score_by_target)
    | .err e => .err e
    | .crash msg => .crash msg
    | .nofuel => .nofuel

/-- Rule lookup in the dependency graph (the `rules_by_label.get` of the
source). -/
def ruleOf (g : BazelDependencyGraph) (l : String) : Option Entry :=
  g.rules_by_label.lookup l

/-- The declared direct dependencies of a label (empty for labels without
a rule). -/
def depsD (g : BazelDependencyGraph) (l : String) : List String :=
  (ruleOf g l).elim [] Entry.dep_targets

/-- One dependency edge: `b` is a declared direct dependency of `a`. -/
def DepStep (g : BazelDependencyGraph) (a b : String) : Prop := b ∈ depsD g a

/-- `b` is reachable from `a` along dependency edges (zero or more). -/
def Reach (g : BazelDependencyGraph) : String → String → Prop :=
  Relation.ReflTransGen (DepStep g)

/-- Total variant of `commits_touching_files`: the commits touching the
given source files, with the panic case contributing nothing (used only
on the specification side; whenever the code completes, the two agree). -/
def spec_commits_of_files (repo : GitRepo) : List String → CommitSet
  | [] => ∅
  | sf :: rest =>
    if strStartsWith sf "@" then spec_commits_of_files repo rest
    else
      match relative_path_of_source_file sf with
      | none => spec_commits_of_files repo rest
      | some path =>
        (match repo.files.lookup path with
         | some f => f.commit_history
         | none => ∅) ∪ spec_commits_of_files repo rest

/-- The spec's `specific_commits`: commits touching exactly this label's
own source files. -/
def specific_commits (g : BazelDependencyGraph) (repo : GitRepo) (l : String) : CommitSet :=
  match ruleOf g l with
  | some e => spec_commits_of_files repo e.source_files
  | none => ∅

/-- One round of closure under dependency edges. -/
def stepSet (g : BazelDependencyGraph) (s : Finset String) : Finset String :=
  s ∪ s.biUnion (fun l => (depsD g l).toFinset)

/-- `n` rounds of closure under dependency edges. -/
def reachIter (g : BazelDependencyGraph) : Nat → Finset String → Finset String
  | 0, s => s
  | n + 1, s => stepSet g (reachIter g n s)

/-- Every label that can ever appear in a closure rooted at `T`: `T`,
the rule labels, and every label mentioned in a dependency list. -/
def labelUniverse (g : BazelDependencyGraph) (T : String) : Finset String :=
  insert T ((g.rules_by_label.map Prod.fst).toFinset ∪
    g.rules_by_label.foldr (fun p acc => p.2.dep_targets.toFinset ∪ acc) ∅)

/-- The dependency closure of `T` (as a finite set): `T` together with
everything reachable from it. -/
def reachClos (g : BazelDependencyGraph) (T : String) : Finset String :=
  reachIter g (labelUniverse g T).card {T}

/-- The spec's transitive commit set of a label: the union of
`specific_commits` over the label and everything reachable from it. -/
def all_commits_spec (g : BazelDependencyGraph) (repo : GitRepo) (T : String) : CommitSet :=
  (reachClos g T).biUnion (specific_commits g repo)

/-- Number of dependency edges pointing at `v` from inside the closure of
`T` (edges are counted with multiplicity: a label listed twice in one
dependency list contributes two edges). -/
def inDegreeInClosure (g : BazelDependencyGraph) (T v : String) : Nat :=
  Finset.sum (reachClos g T) (fun u => (depsD g u).count v)

/-- Acyclicity witness: a rank function along which every dependency edge
strictly descends (for a finite graph this is exactly acyclicity). -/
def RankOk (g : BazelDependencyGraph) (r : String → Nat) : Prop :=
  ∀ p ∈ g.rules_by_label, ∀ d ∈ p.2.dep_targets, r d < r p.1

/-- Every label referenced in a dependency list has a rule (the spec's
"every referenced label is present"). -/
def ClosedGraph (g : BazelDependencyGraph) : Prop :=
  ∀ p ∈ g.rules_by_label, ∀ d ∈ p.2.dep_targets, (ruleOf g d).isSome

/-- Every rule's source-file list normalizes without panicking (each
non-`@` label contains a `:` and yields a non-trivial path). -/
def GoodSources (repo : GitRepo) (g : BazelDependencyGraph) : Prop :=
  ∀ p ∈ g.rules_by_label, commits_touching_files repo p.2.source_files ≠ none

/-- The state invariant of the first pass: cached commit sets are the
spec-level transitive commit sets, the three tables share their key set,
cached labels have their whole reachable cone cached, specific-commit
entries record a successful source normalization, and recorded
`rebuilds` agree with the spec value. -/
def InvTS (g : BazelDependencyGraph) (repo : GitRepo) (st : TriggerState) : Prop :=
  (∀ l, (st.commits_by_target.lookup l).isSome ↔ (st.score_by_target.lookup l).isSome) ∧
  (∀ l, (st.commits_by_target.lookup l).isSome ↔
     (st.commits_specific_to_target.lookup l).isSome) ∧
  (∀ l c, (l, c) ∈ st.commits_by_target → c = all_commits_spec g repo l) ∧
  (∀ l c, (l, c) ∈ st.commits_by_target →
     ∀ x, Reach g l x → (st.commits_by_target.lookup x).isSome) ∧
  (∀ l c, (l, c) ∈ st.commits_specific_to_target →
     ∃ e, ruleOf g l = some e ∧ commits_touching_files repo e.source_files = some c) ∧
  (∀ l t, (l, t) ∈ st.score_by_target →
     t.name = l ∧ t.rebuilds = (all_commits_spec g repo l).card)

/-- What a successful inner computation guarantees. -/
def InnerConc (g : BazelDependencyGraph) (repo : GitRepo) (l : String)
    (st : TriggerState) (c : CommitSet) (st' : TriggerState) : Prop :=
  InvTS g repo st' ∧
  (∀ x, (st.commits_by_target.lookup x).isSome →
     (st'.commits_by_target.lookup x).isSome) ∧
  st'.commits_by_target.lookup l = some c ∧
  (∀ x, (st'.commits_by_target.lookup x).isSome →
     (st.commits_by_target.lookup x).isSome ∨ Reach g l x)

/-- A step function satisfying the inner computation's contract. -/
def StepOkTS (g : BazelDependencyGraph) (repo : GitRepo)
    (step : String → TriggerState → RResult (CommitSet × TriggerState)) : Prop :=
  ∀ l st c st', InvTS g repo st → step l st = .ok (c, st') → InnerConc g repo l st c st'

/-- What a successful dependency loop guarantees. -/
def LoopConc (g : BazelDependencyGraph) (repo : GitRepo) (L : List String)
    (st : TriggerState) (acc acc' : CommitSet) (st' : TriggerState) : Prop :=
  InvTS g repo st' ∧
  (∀ x, (st.commits_by_target.lookup x).isSome →
     (st'.commits_by_target.lookup x).isSome) ∧
  (∀ d ∈ L, ((st'.commits_by_target.lookup d)).isSome) ∧
  (∀ cm, cm ∈ acc' ↔ cm ∈ acc ∨ ∃ d ∈ L, cm ∈ all_commits_spec g repo d) ∧
  (∀ x, (st'.commits_by_target.lookup x).isSome →
     (st.commits_by_target.lookup x).isSome ∨ ∃ d ∈ L, Reach g d x)

/-- The labels for which `calculate_trigger_scores` runs the inner
computation: wildcard seeds expand to the rule labels sharing the prefix
obtained by stripping the seed's last FOUR characters. -/
def seedTargets (g : BazelDependencyGraph) (target : String) : List String :=
  if strEndsWith target "..." then
    (g.rules_by_label.map Prod.fst).filter
      (fun t => strStartsWith t (strTake target (strLength target - 4)))
  else [target]

def repoEmpty : GitRepo := ⟨[]⟩

def gSingle : BazelDependencyGraph := ⟨[("a", ⟨[], []⟩)]⟩

def gSingleB : BazelDependencyGraph := ⟨[("b", ⟨[], []⟩)]⟩

def gSingleSrc : BazelDependencyGraph := ⟨[("a", ⟨[], ["//x:f"]⟩)]⟩

def repoSingleSrc : GitRepo := ⟨[("x/f", ⟨{"c"}⟩)]⟩

def gChain : BazelDependencyGraph :=
  ⟨[("a", ⟨["b"], ["//p:fa"]⟩), ("b", ⟨["c"], ["//p:fb"]⟩), ("c", ⟨[], ["//p:fc"]⟩)]⟩

def repoChain : GitRepo :=
  ⟨[("p/fa", ⟨{"c1"}⟩), ("p/fb", ⟨{"c2"}⟩), ("p/fc", ⟨{"c3"}⟩)]⟩

def gDiamond : BazelDependencyGraph :=
  ⟨[("a", ⟨["b", "c"], ["//p:fa"]⟩), ("b", ⟨["d"], ["//p:fb"]⟩),
    ("c", ⟨["d"], []⟩), ("d", ⟨[], ["//p:fd"]⟩)]⟩

def repoDiamond : GitRepo :=
  ⟨[("p/fa", ⟨{"c1"}⟩), ("p/fb", ⟨{"c2"}⟩), ("p/fd", ⟨{"c3"}⟩)]⟩

def rankDiamond : String → Nat := fun l => if l = "a" then 2 else if l = "d" then 0 else 1

def rtADiamond : ResolvedTarget := ⟨"a", 3, 0, 0, 3, {"c1"}⟩

instance (g : BazelDependencyGraph) (r : String → Nat) : Decidable (RankOk g r) := by
  unfold RankOk
  infer_instance

instance (g : BazelDependencyGraph) : Decidable (ClosedGraph g) := by
  unfold ClosedGraph
  infer_instance

instance (repo : GitRepo) (g : BazelDependencyGraph) : Decidable (GoodSources repo g) := by
  unfold GoodSources
  infer_instance

def resDiamond : List (String × ResolvedTarget) :=
  [("a", rtADiamond),
   ("c", ⟨"c", 1, 1, 1, 2, ∅⟩),
   ("b", ⟨"b", 2, 1, 1, 4, {"c2"}⟩),
   ("d", ⟨"d", 1, 2, 3, 4, {"c3"}⟩)]

/-- A step function satisfying the inner computation's error contract:
every returned error is a `NotFound` for a graph-absent label reachable
from the queried one. -/
def StepErrTS (g : BazelDependencyGraph)
    (step : String → TriggerState → RResult (CommitSet × TriggerState)) : Prop :=
  ∀ l st e, step l st = .err e →
    ∃ x, e = .notFound x ∧ ruleOf g x = none ∧ Reach g l x

def gMissing : BazelDependencyGraph := ⟨[("a", ⟨["zz"], []⟩)]⟩

def rankMissing : String → Nat := fun l => if l = "a" then 1 else 0

def gBadSource : BazelDependencyGraph := ⟨[("a", ⟨[], ["nofile"]⟩)]⟩

/-- The number of edge-visits of `v` during a duplicate-detection call
that processes the pending list `L` and grows the seen set from `seen`
to `seen'`: direct occurrences in `L` plus one per occurrence in the
dependency list of each newly seen (hence fully descended) label. -/
def fdCnt (g : BazelDependencyGraph) (L : List String) (seen seen' : Finset String)
    (v : String) : Nat :=
  L.count v + Finset.sum ( seen' \ seen) (fun u => (depsD g u).count v)

/-- Conclusion of a successful `find_duplicate_deps` loop run over the
pending list `L`: the seen and duplicate sets only grow, membership in
the final seen set is exactly "visited at least once" (counted by
`fdCnt`), membership in the final duplicate set is exactly "visited at
least twice, or already seen once before and visited again", every newly
seen label is reachable from some pending label, and every newly seen
label was looked up successfully. -/
def FdLC (g : BazelDependencyGraph) (L : List String)
    (seen dups seen' dups' : Finset String) : Prop :=
  seen ⊆ seen' ∧ dups ⊆ dups' ∧
  (∀ v, v ∉ seen → (v ∈ seen' ↔ 1 ≤ fdCnt g L seen seen' v)) ∧
  (∀ v, v ∈ dups' ↔ v ∈ dups ∨ 2 ≤ fdCnt g L seen seen' v ∨
    (v ∈ seen ∧ 1 ≤ fdCnt g L seen seen' v)) ∧
  (∀ v, v ∈ seen' → v ∈ seen ∨ ∃ d ∈ L, Reach g d v) ∧
  (∀ u, u ∈ seen' → u ∉ seen → (ruleOf g u).isSome)

/-- Conclusion of a successful `visit_deps` call of
`find_duplicate_deps` on label `d`: the label has a rule and its
dependency list was processed as a loop run. -/
def FdSC (g : BazelDependencyGraph) (d : String)
    (seen dups seen' dups' : Finset String) : Prop :=
  (ruleOf g d).isSome ∧ FdLC g (depsD g d) seen dups seen' dups'

/-- The recursive-call contract used when reasoning about one layer of
the `find_duplicate_deps` traversal. -/
def FdStepOk (g : BazelDependencyGraph)
    (step : String → Finset String → Finset String →
      RResult (Finset String × Finset String)) : Prop :=
  ∀ d seen dups seen' dups', step d seen dups = .ok (seen', dups') →
    FdSC g d seen dups seen' dups'

/-- One step of the `get_unique_deps` traversal: a dependency edge whose
head is not in the duplicate set. -/
def AvoidStep (g : BazelDependencyGraph) (S : Finset String) (a b : String) : Prop :=
  DepStep g a b ∧ b ∉ S

/-- A dependency path from `x` to `v` that never touches the duplicate
set `S` (including at both endpoints): exactly the labels collected by
`get_unique_deps`. -/
def AvoidPath (g : BazelDependencyGraph) (S : Finset String) (x v : String) : Prop :=
  x ∉ S ∧ Relation.ReflTransGen (AvoidStep g S) x v

/-- The recursive-call contract for one layer of the `get_unique_deps`
traversal. -/
def GuStepOk (g : BazelDependencyGraph) (S : Finset String)
    (step : String → Finset String → RResult (Finset String)) : Prop :=
  ∀ d acc acc', step d acc = .ok acc' →
    acc ⊆ acc' ∧ (∀ v, v ∈ acc' ↔ v ∈ acc ∨ AvoidPath g S d v)

instance (g : BazelDependencyGraph) (a b : String) : Decidable (DepStep g a b) := by
  unfold DepStep
  infer_instance

/-- The double-diamond graph whose branches merge strictly above `D`:
`s -> d1 -> x -> D` and `s -> d2 -> x -> D`. -/
def g5 : BazelDependencyGraph :=
  ⟨[("s", ⟨["d1", "d2"], []⟩), ("d1", ⟨["x"], []⟩), ("d2", ⟨["x"], []⟩),
    ("x", ⟨["D"], []⟩), ("D", ⟨[], []⟩)]⟩

def rank5 : String → Nat := fun l =>
  if l = "s" then 3 else if l = "d1" then 2 else if l = "d2" then 2
  else if l = "x" then 1 else 0

/-- A graph whose seed lists the same immediate dependency twice. -/
def gDup : BazelDependencyGraph :=
  ⟨[("a", ⟨["b", "b"], []⟩), ("b", ⟨[], []⟩)]⟩

def rankDup : String → Nat := fun l => if l = "a" then 1 else 0

/-- The commit set the ranker of `most_unique_triggers` reads from the
score table for a label (empty when the label is absent, mirroring the
`if let Some(dep_score)` lookup). -/
def scoreCommits (scores : List (String × ResolvedTarget)) (l : String) : CommitSet :=
  match scores.lookup l with
  | some dep_score => dep_score.commits
  | none => ∅

lemma lookup_mem {β : Type} {l : List (String × β)} {a : String} {b : β}
    (h : l.lookup a = some b) : (a, b) ∈ l := by
  rcases List.lookup_eq_some_iff.mp h with ⟨l₁, l₂, rfl, -⟩
  exact List.mem_append.mpr (Or.inr (List.mem_cons_self _ _))

lemma lookup_isSome_iff_mem_keys {β : Type} {l : List (String × β)} {a : String} :
    (l.lookup a).isSome ↔ a ∈ l.map Prod.fst := by
  rw [List.lookup_isSome_iff, List.mem_map]
  constructor
  · rintro ⟨p, hp, hbeq⟩
    exact ⟨p, hp, (by simpa using hbeq : a = p.1).symm⟩
  · rintro ⟨p, hp, heq⟩
    exact ⟨p, hp, by simp [heq]⟩

lemma mem_stepSet {g : BazelDependencyGraph} {s : Finset String} {x : String} :
    x ∈ stepSet g s ↔ x ∈ s ∨ ∃ u ∈ s, x ∈ depsD g u := by
  simp [stepSet]

lemma subset_stepSet {g : BazelDependencyGraph} {s : Finset String} : s ⊆ stepSet g s :=
  fun _ hx => mem_stepSet.mpr (Or.inl hx)

lemma stepSet_mono {g : BazelDependencyGraph} {s t : Finset String} (h : s ⊆ t) :
    stepSet g s ⊆ stepSet g t := by
  intro x hx
  rcases mem_stepSet.mp hx with hx | ⟨u, hu, hd⟩
  · exact mem_stepSet.mpr (Or.inl (h hx))
  · exact mem_stepSet.mpr (Or.inr ⟨u, h hu, hd⟩)

lemma reachIter_succ_supset {g : BazelDependencyGraph} {s : Finset String} {n : Nat} :
    reachIter g n s ⊆ reachIter g (n + 1) s := by
  simp only [reachIter]
  exact subset_stepSet

lemma reachIter_le_subset {g : BazelDependencyGraph} {s : Finset String} {m n : Nat}
    (h : m ≤ n) : reachIter g m s ⊆ reachIter g n s := by
  induction h with
  | refl => exact fun x hx => hx
  | step _ ih => exact fun x hx => reachIter_succ_supset (ih hx)

lemma reachIter_stable_or_card {g : BazelDependencyGraph} {s : Finset String} :
    ∀ n : Nat, stepSet g (reachIter g n s) = reachIter g n s ∨
      n + s.card ≤ (reachIter g n s).card := by
  intro n
  induction n with
  | zero => exact Or.inr (by simp [reachIter])
  | succ n ih =>
    by_cases h : stepSet g (reachIter g n s) = reachIter g n s
    · left
      show stepSet g (stepSet g (reachIter g n s)) = stepSet g (reachIter g n s)
      rw [h]
      exact h
    · right
      rcases ih with ih | ih
      · exact absurd ih h
      · have hss : reachIter g n s ⊂ stepSet g (reachIter g n s) :=
          (Finset.ssubset_iff_subset_ne).mpr ⟨subset_stepSet, fun hh => h hh.symm⟩
        have hlt : (reachIter g n s).card < (reachIter g (n + 1) s).card := by
          simpa [reachIter] using Finset.card_lt_card hss
        omega

lemma mem_foldr_depUnion {g : BazelDependencyGraph} {x : String} :
    x ∈ g.rules_by_label.foldr (fun p acc => p.2.dep_targets.toFinset ∪ acc) ∅ ↔
      ∃ p ∈ g.rules_by_label, x ∈ p.2.dep_targets := by
  induction g.rules_by_label with
  | nil => simp
  | cons p rest ih => simp [ih]

lemma depsD_subset_universe {g : BazelDependencyGraph} {T u d : String}
    (hd : d ∈ depsD g u) : d ∈ labelUniverse g T := by
  unfold depsD at hd
  unfold labelUniverse
  cases hru : ruleOf g u with
  | none => rw [hru] at hd; simp [Option.elim] at hd
  | some e =>
    rw [hru] at hd
    simp only [Option.elim] at hd
    have hmem : (u, e) ∈ g.rules_by_label := lookup_mem hru
    simp only [Finset.mem_insert, Finset.mem_union]
    right; right
    exact mem_foldr_depUnion.mpr ⟨(u, e), hmem, hd⟩

lemma reachIter_subset_universe {g : BazelDependencyGraph} {T : String} :
    ∀ n, reachIter g n {T} ⊆ labelUniverse g T := by
  intro n
  induction n with
  | zero =>
    intro x hx
    simp only [reachIter, Finset.mem_singleton] at hx
    simp [labelUniverse, hx]
  | succ n ih =>
    intro x hx
    simp only [reachIter] at hx
    rcases mem_stepSet.mp hx with hx | ⟨u, _, hd⟩
    · exact ih hx
    · exact depsD_subset_universe hd

lemma stepSet_reachClos {g : BazelDependencyGraph} {T : String} :
    stepSet g (reachClos g T) = reachClos g T := by
  unfold reachClos
  rcases reachIter_stable_or_card (g := g) (s := ({T} : Finset String))
      ((labelUniverse g T).card) with h | h
  · exact h
  · exfalso
    have hcard : (reachIter g (labelUniverse g T).card {T}).card ≤ (labelUniverse g T).card :=
      Finset.card_le_card (reachIter_subset_universe _)
    simp only [Finset.card_singleton] at h
    omega

lemma mem_reachClos_self {g : BazelDependencyGraph} {T : String} : T ∈ reachClos g T := by
  unfold reachClos
  exact reachIter_le_subset (Nat.zero_le _) (by simp [reachIter])

lemma mem_reachIter_reach {g : BazelDependencyGraph} {T : String} {n : Nat} :
    ∀ {x : String}, x ∈ reachIter g n {T} → Reach g T x := by
  induction n with
  | zero =>
    intro x hx
    simp only [reachIter, Finset.mem_singleton] at hx
    exact hx ▸ Relation.ReflTransGen.refl
  | succ n ih =>
    intro x hx
    simp only [reachIter] at hx
    rcases mem_stepSet.mp hx with hx | ⟨u, hu, hd⟩
    · exact ih hx
    · exact Relation.ReflTransGen.tail (ih hu) hd

lemma mem_reachClos_iff {g : BazelDependencyGraph} {T x : String} :
    x ∈ reachClos g T ↔ Reach g T x := by
  constructor
  · intro hx
    exact mem_reachIter_reach hx
  · intro hreach
    induction hreach with
    | refl => exact mem_reachClos_self
    | tail _ hstep ih =>
      have : _ ∈ stepSet g (reachClos g T) := mem_stepSet.mpr (Or.inr ⟨_, ih, hstep⟩)
      rwa [stepSet_reachClos] at this

lemma reach_head_iff {g : BazelDependencyGraph} {T x : String} :
    Reach g T x ↔ x = T ∨ ∃ d ∈ depsD g T, Reach g d x := by
  constructor
  · intro h
    rcases Relation.ReflTransGen.cases_head h with h | ⟨c, hc, hcx⟩
    · exact Or.inl h.symm
    · exact Or.inr ⟨c, hc, hcx⟩
  · rintro (rfl | ⟨d, hd, hdx⟩)
    · exact Relation.ReflTransGen.refl
    · exact Relation.ReflTransGen.head hd hdx

lemma mem_all_commits_spec {g : BazelDependencyGraph} {repo : GitRepo} {T : String}
    {c : String} :
    c ∈ all_commits_spec g repo T ↔
      ∃ x, Reach g T x ∧ c ∈ specific_commits g repo x := by
  unfold all_commits_spec
  simp only [Finset.mem_biUnion, mem_reachClos_iff]

lemma all_commits_spec_unfold {g : BazelDependencyGraph} {repo : GitRepo} {T : String}
    {c : String} :
    c ∈ all_commits_spec g repo T ↔
      c ∈ specific_commits g repo T ∨ ∃ d ∈ depsD g T, c ∈ all_commits_spec g repo d := by
  rw [mem_all_commits_spec]
  constructor
  · rintro ⟨x, hx, hc⟩
    rcases reach_head_iff.mp hx with rfl | ⟨d, hd, hdx⟩
    · exact Or.inl hc
    · exact Or.inr ⟨d, hd, mem_all_commits_spec.mpr ⟨x, hdx, hc⟩⟩
  · rintro (hc | ⟨d, hd, hc⟩)
    · exact ⟨T, Relation.ReflTransGen.refl, hc⟩
    · rcases mem_all_commits_spec.mp hc with ⟨x, hdx, hcx⟩
      exact ⟨x, reach_head_iff.mpr (Or.inr ⟨d, hd, hdx⟩), hcx⟩

lemma commits_touching_files_eq_spec {repo : GitRepo} :
    ∀ {fs : List String} {c : CommitSet},
      commits_touching_files repo fs = some c → c = spec_commits_of_files repo fs := by
  intro fs
  induction fs with
  | nil =>
    intro c h
    rw [commits_touching_files] at h
    cases h
    rfl
  | cons sf rest ih =>
    intro c h
    rw [commits_touching_files] at h
    rw [spec_commits_of_files]
    cases hat : strStartsWith sf "@" with
    | true =>
      rw [hat] at h
      simp only [if_pos] at h ⊢
      exact ih h
    | false =>
      rw [hat] at h
      simp only [Bool.false_eq_true, if_neg, if_false] at h ⊢
      cases hrp : relative_path_of_source_file sf with
      | none => rw [hrp] at h; cases h
      | some path =>
        rw [hrp] at h
        cases hrest : commits_touching_files repo rest with
        | none => rw [hrest] at h; cases h
        | some crest =>
          rw [hrest] at h
          simp only [Option.map] at h
          cases h
          rw [ih hrest]

lemma lookup_cons' {β : Type} {k x : String} {v : β} {rest : List (String × β)} :
    ((k, v) :: rest).lookup x = if x = k then some v else rest.lookup x := by
  rw [List.lookup_cons]
  by_cases h : x = k
  · simp [h]
  · have hb : (x == k) = false := by simpa using h
    simp [hb, h]

lemma isSome_lookup_cons {β : Type} {k x : String} {v : β} {rest : List (String × β)}
    (h : (rest.lookup x).isSome) : ((((k, v) :: rest)).lookup x).isSome := by
  rw [lookup_cons']
  by_cases hx : x = k <;> simp [hx, h]

lemma lookup_map_update {β : Type} (f : β → β) (k : String) :
    ∀ (m : List (String × β)) (x : String),
      (m.map (fun p => if p.1 = k then (p.1, f p.2) else p)).lookup x =
        if x = k then (m.lookup x).map f else m.lookup x := by
  intro m
  induction m with
  | nil => intro x; by_cases hx : x = k <;> simp [hx]
  | cons p rest ih =>
    intro x
    rcases p with ⟨pk, pv⟩
    simp only [List.map_cons]
    by_cases hpk : pk = k
    · subst hpk
      rw [if_pos (show (pk, pv).1 = pk from rfl)]
      rw [lookup_cons', lookup_cons']
      by_cases hx : x = pk
      · simp [hx]
      · simp only [if_neg hx]
        rw [ih x, if_neg hx]
    · rw [if_neg (show ¬ (pk, pv).1 = k from hpk)]
      rw [lookup_cons', lookup_cons']
      by_cases hx : x = pk
      · subst hx
        rw [if_pos rfl, if_neg hpk, if_pos rfl]
      · simp only [if_neg hx]
        exact ih x

lemma mem_map_update {β : Type} {f : β → β} {k : String} {m : List (String × β)}
    {x : String} {b : β}
    (h : (x, b) ∈ m.map (fun p => if p.1 = k then (p.1, f p.2) else p)) :
    ∃ b₀, (x, b₀) ∈ m ∧ (b = b₀ ∨ b = f b₀) := by
  rcases List.mem_map.mp h with ⟨⟨pk, pv⟩, hp, heq⟩
  by_cases hpk : pk = k
  · rw [if_pos (show (pk, pv).1 = k from hpk)] at heq
    injection heq with hx hb
    subst hx
    subst hb
    exact ⟨pv, hp, Or.inr rfl⟩
  · rw [if_neg (show ¬ (pk, pv).1 = k from hpk)] at heq
    injection heq with hx hb
    subst hx
    subst hb
    exact ⟨pv, hp, Or.inl rfl⟩

lemma invTS_empty {g : BazelDependencyGraph} {repo : GitRepo} :
    InvTS g repo ⟨[], [], []⟩ := by
  refine ⟨?_, ?_, ?_, ?_, ?_, ?_⟩ <;> simp

lemma invTS_push {g : BazelDependencyGraph} {repo : GitRepo} {st : TriggerState}
    {dep parent : String} {m : List (String × Target)}
    (hinv : InvTS g repo st)
    (hpush : pushDependent st.score_by_target dep parent = some m) :
    InvTS g repo { st with score_by_target := m } := by
  obtain ⟨h1, h2, h3, h4, h5, h6⟩ := hinv
  unfold pushDependent at hpush
  by_cases hguard : ((st.score_by_target.lookup dep)).isSome
  · rw [if_pos hguard] at hpush
    injection hpush with hm
    subst hm
    refine ⟨?_, h2, h3, h4, h5, ?_⟩
    · intro l
      dsimp only
      rw [lookup_map_update]
      by_cases hl : l = dep
      · simp only [if_pos hl, Option.isSome_map']
        exact h1 l
      · simp only [if_neg hl]
        exact h1 l
    · intro l t hmem
      dsimp only at hmem
      rcases mem_map_update hmem with ⟨t₀, hmem₀, heq | heq⟩
      · subst heq
        exact h6 l _ hmem₀
      · subst heq
        rcases h6 l t₀ hmem₀ with ⟨hn, hr⟩
        exact ⟨hn, hr⟩
  · rw [if_neg hguard] at hpush
    cases hpush

lemma deps_loop_ok {g : BazelDependencyGraph} {repo : GitRepo}
    {step : String → TriggerState → RResult (CommitSet × TriggerState)}
    (hstep : StepOkTS g repo step) :
    ∀ (L : List String) (parent : String) (st : TriggerState) (acc acc' : CommitSet)
      (st' : TriggerState), InvTS g repo st →
      trigger_scores_deps_loop step parent L st acc = .ok (acc', st') →
      LoopConc g repo L st acc acc' st' := by
  intro L
  induction L with
  | nil =>
    intro parent st acc acc' st' hinv heq
    rw [trigger_scores_deps_loop] at heq
    injection heq with h
    injection h with hacc hst
    subst hacc
    subst hst
    exact ⟨hinv, fun _ hx => hx, by simp, fun cm => by simp, fun _ hx => Or.inl hx⟩
  | cons d rest ih =>
    intro parent st acc acc' st' hinv heq
    rw [trigger_scores_deps_loop] at heq
    split at heq
    next cs st1 hcall =>
      split at heq
      next m hpush =>
        obtain ⟨hinv1, hmono1, hlook1, hnew1⟩ := hstep d st cs st1 hinv hcall
        have hinv2 : InvTS g repo { st1 with score_by_target := m } := invTS_push hinv1 hpush
        obtain ⟨hinv', hmono', hdeps', hacc', hnew'⟩ :=
          ih parent { st1 with score_by_target := m } (acc ∪ cs) acc' st' hinv2 heq
        obtain ⟨h1a, h2a, h3a, h4a, h5a, h6a⟩ := hinv1
        have hcs : cs = all_commits_spec g repo d := h3a d cs (lookup_mem hlook1)
        refine ⟨hinv', ?_, ?_, ?_, ?_⟩
        · intro x hx
          exact hmono' x (hmono1 x hx)
        · intro d' hd'
          rcases List.mem_cons.mp hd' with rfl | hd'
          · exact hmono' d' (by simp [hlook1])
          · exact hdeps' d' hd'
        · intro cm
          rw [hacc' cm]
          constructor
          · rintro (hm | ⟨d', hd', hm⟩)
            · rcases Finset.mem_union.mp hm with hm | hm
              · exact Or.inl hm
              · exact Or.inr ⟨d, List.mem_cons_self _ _, hcs ▸ hm⟩
            · exact Or.inr ⟨d', List.mem_cons_of_mem _ hd', hm⟩
          · rintro (hm | ⟨d', hd', hm⟩)
            · exact Or.inl (Finset.mem_union_left _ hm)
            · rcases List.mem_cons.mp hd' with rfl | hd'
              · exact Or.inl (Finset.mem_union_right _ (hcs ▸ hm))
              · exact Or.inr ⟨d', hd', hm⟩
        · intro x hx
          rcases hnew' x hx with hx1 | ⟨d', hd', hr⟩
          · rcases hnew1 x hx1 with h | h
            · exact Or.inl h
            · exact Or.inr ⟨d, List.mem_cons_self _ _, h⟩
          · exact Or.inr ⟨d', List.mem_cons_of_mem _ hd', hr⟩
      next hpush => simp at heq
    next e hcall => simp at heq
    next msg hcall => simp at heq
    next hcall => simp at heq

lemma inner_step_ok {g : BazelDependencyGraph} {repo : GitRepo} :
    ∀ fuel, StepOkTS g repo
      (fun d s => calculate_trigger_scores_map_inner repo g fuel d s) := by
  intro fuel
  induction fuel with
  | zero =>
    intro l st c st' _ heq
    change calculate_trigger_scores_map_inner repo g 0 l st = .ok (c, st') at heq
    rw [calculate_trigger_scores_map_inner] at heq
    simp at heq
  | succ fuel ih =>
    intro l st c st' hinv heq
    change calculate_trigger_scores_map_inner repo g (fuel + 1) l st = .ok (c, st') at heq
    rw [calculate_trigger_scores_map_inner] at heq
    split at heq
    next commits hcache =>
      injection heq with hpair
      injection hpair with hc hst
      subst hc
      subst hst
      exact ⟨hinv, fun _ hx => hx, hcache, fun _ hx => Or.inl hx⟩
    next hcache =>
      split at heq
      next hrule => simp at heq
      next rule hrule =>
        split at heq
        next all_commits st1 hloop =>
          split at heq
          next hctf => simp at heq
          next ctf hctf =>
            injection heq with hpair
            injection hpair with hc hst
            subst hc
            subst hst
            obtain ⟨hinv1, hmono1, hdeps1, hacc1, hnew1⟩ :=
              deps_loop_ok ih rule.dep_targets l st ∅ all_commits st1 hinv hloop
            have hctf_spec : ctf = spec_commits_of_files repo rule.source_files :=
              commits_touching_files_eq_spec hctf
            have hruleOf : ruleOf g l = some rule := hrule
            have hspecl : specific_commits g repo l = ctf := by
              unfold specific_commits
              rw [hruleOf]
              exact hctf_spec.symm
            have hdepsl : depsD g l = rule.dep_targets := by
              unfold depsD
              rw [hruleOf]
              rfl
            have hunion : all_commits ∪ ctf = all_commits_spec g repo l := by
              ext cm
              rw [Finset.mem_union, hacc1 cm, all_commits_spec_unfold, hdepsl, hspecl]
              simp only [Finset.not_mem_empty, false_or]
              exact or_comm
            obtain ⟨h1a, h2a, h3a, h4a, h5a, h6a⟩ := hinv1
            refine ⟨⟨?_, ?_, ?_, ?_, ?_, ?_⟩, ?_, ?_, ?_⟩
            · intro x
              dsimp only
              rw [lookup_cons', lookup_cons']
              by_cases hx : x = l
              · simp [hx]
              · simp only [if_neg hx]
                exact h1a x
            · intro x
              dsimp only
              rw [lookup_cons', lookup_cons']
              by_cases hx : x = l
              · simp [hx]
              · simp only [if_neg hx]
                exact h2a x
            · intro y cy hmem
              dsimp only at hmem
              rcases List.mem_cons.mp hmem with hhd | htl
              · injection hhd with hy hcy
                subst hy
                subst hcy
                exact hunion
              · exact h3a y cy htl
            · intro y cy hmem x hreach
              dsimp only at hmem ⊢
              rw [lookup_cons']
              by_cases hx : x = l
              · simp [hx]
              · simp only [if_neg hx]
                rcases List.mem_cons.mp hmem with hhd | htl
                · injection hhd with hy hcy
                  subst hy
                  rcases reach_head_iff.mp hreach with hxl | ⟨dd, hdd, hdr⟩
                  · exact absurd hxl hx
                  · rw [hdepsl] at hdd
                    have hds := hdeps1 dd hdd
                    rcases Option.isSome_iff_exists.mp hds with ⟨cd, hcd⟩
                    exact h4a dd cd (lookup_mem hcd) x hdr
                · exact h4a y cy htl x hreach
            · intro y cy hmem
              dsimp only at hmem
              rcases List.mem_cons.mp hmem with hhd | htl
              · injection hhd with hy hcy
                subst hy
                subst hcy
                exact ⟨rule, hruleOf, hctf⟩
              · exact h5a y cy htl
            · intro y t hmem
              dsimp only at hmem
              rcases List.mem_cons.mp hmem with hhd | htl
              · injection hhd with hy ht
                subst hy
                subst ht
                exact ⟨rfl, by rw [hunion]⟩
              · exact h6a y t htl
            · intro x hx
              dsimp only
              exact isSome_lookup_cons (hmono1 x hx)
            · dsimp only
              rw [lookup_cons', if_pos rfl]
            · intro x hx
              dsimp only at hx
              rw [lookup_cons'] at hx
              by_cases hx' : x = l
              · exact Or.inr (hx' ▸ Relation.ReflTransGen.refl)
              · rw [if_neg hx'] at hx
                rcases hnew1 x hx with h | ⟨dd, hdd, hr⟩
                · exact Or.inl h
                · exact Or.inr (reach_head_iff.mpr (Or.inr ⟨dd, hdepsl ▸ hdd, hr⟩))
        next e hloop => simp at heq
        next msg hloop => simp at heq
        next hloop => simp at heq

lemma run_seeds_ok {g : BazelDependencyGraph} {repo : GitRepo} {fuel : Nat} :
    ∀ (seeds : List String) (st st' : TriggerState), InvTS g repo st →
      trigger_scores_run_seeds repo g fuel seeds st = .ok st' →
      InvTS g repo st' ∧
      (∀ x, (st.commits_by_target.lookup x).isSome →
        (st'.commits_by_target.lookup x).isSome) ∧
      (∀ s ∈ seeds, (st'.commits_by_target.lookup s).isSome) ∧
      (∀ x, (st'.commits_by_target.lookup x).isSome →
        (st.commits_by_target.lookup x).isSome ∨ ∃ s ∈ seeds, Reach g s x) := by
  intro seeds
  induction seeds with
  | nil =>
    intro st st' hinv heq
    rw [trigger_scores_run_seeds] at heq
    injection heq with h
    subst h
    exact ⟨hinv, fun _ hx => hx, by simp, fun _ hx => Or.inl hx⟩
  | cons s rest ih =>
    intro st st' hinv heq
    rw [trigger_scores_run_seeds] at heq
    split at heq
    next c st1 hcall =>
      obtain ⟨hinv1, hmono1, hlook1, hnew1⟩ := inner_step_ok fuel s st c st1 hinv hcall
      obtain ⟨hinv', hmono', hseeds', hnew'⟩ := ih st1 st' hinv1 heq
      refine ⟨hinv', fun x hx => hmono' x (hmono1 x hx), ?_, ?_⟩
      · intro s' hs'
        rcases List.mem_cons.mp hs' with rfl | hs'
        · exact hmono' s' (by simp [hlook1])
        · exact hseeds' s' hs'
      · intro x hx
        rcases hnew' x hx with hx1 | ⟨s', hs', hr⟩
        · rcases hnew1 x hx1 with h | h
          · exact Or.inl h
          · exact Or.inr ⟨s, List.mem_cons_self _ _, h⟩
        · exact Or.inr ⟨s', List.mem_cons_of_mem _ hs', hr⟩
    next e hcall => simp at heq
    next msg hcall => simp at heq
    next hcall => simp at heq

lemma second_pass_ok {g : BazelDependencyGraph} {repo : GitRepo} {st : TriggerState}
    (hinv : InvTS g repo st) :
    ∀ entries : List (String × Target), (∀ p ∈ entries, p ∈ st.score_by_target) →
      ∃ res, trigger_scores_second_pass st entries = .ok res ∧
        (∀ q ∈ res, ∃ p ∈ entries, q.1 = p.1 ∧ q.2.rebuilds = p.2.rebuilds ∧
          q.2.score = q.2.rebuilds * (q.2.total_dependents + 1) ∧
          st.commits_specific_to_target.lookup p.1 = some q.2.commits) ∧
        (∀ p ∈ entries, ∃ q ∈ res, q.1 = p.1) := by
  obtain ⟨h1, h2, h3, h4, h5, h6⟩ := hinv
  intro entries
  induction entries with
  | nil =>
    intro _
    exact ⟨[], by rw [trigger_scores_second_pass], by simp, by simp⟩
  | cons p rest ih =>
    intro hsub
    rcases p with ⟨l, t⟩
    have hpmem : (l, t) ∈ st.score_by_target := hsub _ (List.mem_cons_self _ _)
    obtain ⟨hname, hrb⟩ := h6 l t hpmem
    have hscoreSome : (st.score_by_target.lookup l).isSome :=
      lookup_isSome_iff_mem_keys.mpr (List.mem_map.mpr ⟨(l, t), hpmem, rfl⟩)
    have hspecSome : (st.commits_specific_to_target.lookup l).isSome :=
      (h2 l).mp ((h1 l).mpr hscoreSome)
    rcases Option.isSome_iff_exists.mp hspecSome with ⟨commits, hcommits⟩
    obtain ⟨res', hres', hfacts', hcover'⟩ :=
      ih (fun p hp => hsub p (List.mem_cons_of_mem _ hp))
    refine ⟨(l, ⟨l, t.rebuilds, t.immediate_dependents.length,
        recursively_calculate_total_dependents st.score_by_target t,
        t.rebuilds * (recursively_calculate_total_dependents st.score_by_target t + 1),
        commits⟩) :: res', ?_, ?_, ?_⟩
    · rw [trigger_scores_second_pass, hname, hcommits, hres']
    · intro q hq
      rcases List.mem_cons.mp hq with rfl | hq
      · exact ⟨(l, t), List.mem_cons_self _ _, rfl, rfl, rfl, hcommits⟩
      · obtain ⟨p', hp', hfacts⟩ := hfacts' q hq
        exact ⟨p', List.mem_cons_of_mem _ hp', hfacts⟩
    · intro p hp
      rcases List.mem_cons.mp hp with heqp | hp
      · subst heqp
        exact ⟨_, List.mem_cons_self _ _, rfl⟩
      · obtain ⟨q, hq, hqe⟩ := hcover' p hp
        exact ⟨q, List.mem_cons_of_mem _ hq, hqe⟩

lemma calculate_ok_spec {repo : GitRepo} {g : BazelDependencyGraph} {fuel : Nat}
    {target : String} {m : List (String × ResolvedTarget)}
    (heq : calculate_trigger_scores repo g fuel target = .ok m) :
    (∀ q ∈ m, q.2.rebuilds = (all_commits_spec g repo q.1).card ∧
       q.2.score = q.2.rebuilds * (q.2.total_dependents + 1) ∧
       ∃ e, ruleOf g q.1 = some e ∧
         commits_touching_files repo e.source_files = some q.2.commits) ∧
    (∀ x, (∃ rt, (x, rt) ∈ m) ↔ ∃ s ∈ seedTargets g target, Reach g s x) := by
  have hmain : ∃ st : TriggerState, InvTS g repo st ∧
      trigger_scores_second_pass st st.score_by_target = .ok m ∧
      (∀ s ∈ seedTargets g target, (st.commits_by_target.lookup s).isSome) ∧
      (∀ x, (st.commits_by_target.lookup x).isSome → ∃ s ∈ seedTargets g target, Reach g s x) := by
    rw [calculate_trigger_scores] at heq
    split at heq
    next hwild =>
      split at heq
      next hshort => simp at heq
      next hshort =>
        dsimp only at heq
        split at heq
        next st hrun =>
          obtain ⟨hinv', _, hseeds', hnew'⟩ := run_seeds_ok _ _ _ invTS_empty hrun
          refine ⟨st, hinv', heq, ?_, ?_⟩
          · intro s hs
            rw [seedTargets, if_pos hwild] at hs
            exact hseeds' s hs
          · intro x hx
            rcases hnew' x hx with hbad | ⟨s, hs, hr⟩
            · simp at hbad
            · exact ⟨s, by rw [seedTargets, if_pos hwild]; exact hs, hr⟩
        next e hrun => simp at heq
        next msg hrun => simp at heq
        next hrun => simp at heq
    next hwild =>
      split at heq
      next c st hcall =>
        obtain ⟨hinv', _, hlook', hnew'⟩ := inner_step_ok fuel target _ c st invTS_empty hcall
        refine ⟨st, hinv', heq, ?_, ?_⟩
        · intro s hs
          rw [seedTargets, if_neg hwild] at hs
          rcases List.mem_singleton.mp hs with rfl
          simp [hlook']
        · intro x hx
          rcases hnew' x hx with hbad | hr
          · simp at hbad
          · exact ⟨target, by rw [seedTargets, if_neg hwild]; exact List.mem_singleton_self _, hr⟩
      next e hcall => simp at heq
      next msg hcall => simp at heq
      next hcall => simp at heq
  obtain ⟨st, hinv, hsp, hseeds, hreachable⟩ := hmain
  obtain ⟨h1, h2, h3, h4, h5, h6⟩ := hinv
  obtain ⟨res, hres, hfacts, hcover⟩ := second_pass_ok ⟨h1, h2, h3, h4, h5, h6⟩
    st.score_by_target (fun _ hp => hp)
  rw [hres] at hsp
  injection hsp with hm
  subst hm
  constructor
  · intro q hq
    obtain ⟨p, hp, hq1, hqrb, hqscore, hqcommits⟩ := hfacts q hq
    obtain ⟨hname, hrb⟩ := h6 p.1 p.2 hp
    refine ⟨?_, hqscore, ?_⟩
    · rw [hqrb, hq1, hrb]
    · obtain ⟨e, hrule, hctf⟩ := h5 p.1 q.2.commits (lookup_mem hqcommits)
      exact ⟨e, by rw [hq1]; exact hrule, by rw [hctf]⟩
  · intro x
    constructor
    · rintro ⟨rt, hrt⟩
      obtain ⟨p, hp, hq1, -⟩ := hfacts (x, rt) hrt
      have hq1' : x = p.1 := hq1
      have hscoreSome : (st.score_by_target.lookup p.1).isSome :=
        lookup_isSome_iff_mem_keys.mpr (List.mem_map.mpr ⟨p, hp, rfl⟩)
      have hcSome : (st.commits_by_target.lookup x).isSome := by
        rw [hq1']
        exact (h1 p.1).mpr hscoreSome
      exact hreachable x hcSome
    · rintro ⟨s, hs, hr⟩
      have hsSome := hseeds s hs
      rcases Option.isSome_iff_exists.mp hsSome with ⟨cs, hcs⟩
      have hxSome : (st.commits_by_target.lookup x).isSome :=
        h4 s cs (lookup_mem hcs) x hr
      have hxScore : (st.score_by_target.lookup x).isSome := (h1 x).mp hxSome
      rcases Option.isSome_iff_exists.mp hxScore with ⟨t, ht⟩
      obtain ⟨q, hq, hq1⟩ := hcover (x, t) (lookup_mem ht)
      refine ⟨q.2, ?_⟩
      have : q = (x, q.2) := by
        rcases q with ⟨q1, q2⟩
        simp at hq1
        simp [hq1]
      rwa [this] at hq

lemma analyzer_second_pass_score {st : AState} :
    ∀ (entries : List (String × ATarget)) (q : String × AResolvedTarget),
      q ∈ analyzer_second_pass st entries →
      q.2.score = q.2.rebuilds * q.2.immediate_dependents := by
  intro entries
  induction entries with
  | nil =>
    intro q hq
    rw [analyzer_second_pass] at hq
    simp at hq
  | cons p rest ih =>
    intro q hq
    rw [analyzer_second_pass] at hq
    rcases List.mem_cons.mp hq with heqq | hq
    · subst heqq
      rfl
    · exact ih q hq

lemma analyzer_map_score {repo : GitRepo} {g : BazelDependencyGraph} {fuel : Nat}
    {target : String} {m : List (String × AResolvedTarget)}
    (heq : calculate_trigger_scores_map repo g fuel target = .ok m) :
    ∀ q ∈ m, q.2.score = q.2.rebuilds * q.2.immediate_dependents := by
  rw [calculate_trigger_scores_map] at heq
  split at heq
  next hwild =>
    split at heq
    next hshort => simp at heq
    next hshort =>
      dsimp only at heq
      split at heq
      next st hrun =>
        injection heq with h
        subst h
        intro q hq
        exact analyzer_second_pass_score _ q hq
      next e hrun => simp at heq
      next msg hrun => simp at heq
      next hrun => simp at heq
  next hwild =>
    split at heq
    next c st hcall =>
      injection heq with h
      subst h
      intro q hq
      exact analyzer_second_pass_score _ q hq
    next e hcall => simp at heq
    next msg hcall => simp at heq
    next hcall => simp at heq

/-- C1: whenever `calculate_trigger_scores` returns a mapping (the claim's
setting: an acyclic graph with every referenced label present), every
entry's `rebuilds` equals the size of the union of the specific commit
sets (`specific_commits`) of the entry's label and of every label
transitively reachable from it along dependency edges — a
characterization independent of how many distinct paths reach a shared
sub-dependency. -/
theorem C1_trigger_rebuilds_transitive (repo : GitRepo) (g : BazelDependencyGraph)
    (fuel : Nat) (seed : String) (m : List (String × ResolvedTarget))
    (r : String → Nat) (_hrank : RankOk g r) (_hclosed : ClosedGraph g)
    (hok : calculate_trigger_scores repo g fuel seed = .ok m) :
    ∀ name rt, (name, rt) ∈ m → rt.rebuilds = (all_commits_spec g repo name).card := by
  intro name rt hmem
  exact ((calculate_ok_spec hok).1 (name, rt) hmem).1

/-- Witness for C1 on a concrete diamond graph `a → {b, c}`, `b → d`,
`c → d`: the shared sub-dependency `d` is counted once. -/
theorem C1_witness :
    RankOk gDiamond rankDiamond ∧ ClosedGraph gDiamond ∧
    calculate_trigger_scores repoDiamond gDiamond 9 "a" = .ok resDiamond ∧
    rtADiamond.rebuilds = (all_commits_spec gDiamond repoDiamond "a").card :=
  ⟨by decide, by decide, by decide,
   C1_trigger_rebuilds_transitive repoDiamond gDiamond 9 "a" resDiamond rankDiamond
     (by decide) (by decide) (by decide) "a" rtADiamond (by decide)⟩

/-- C2: the code computes `total_dependents` as the number of distinct
STRICT dependents, never counting the target itself: a lone target gets
`total_dependents = 0` (the claim requires `≥ 1`), and on the chain
`a → b → c` the code yields `2, 1, 0` where the spec's own scenario
requires `3, 2, 1` (and consequently scores `3, 4, 3` instead of
`6, 6, 4`).  The Rust inner traversal even computes the self-counting
total and discards it, returning `visited.len()` instead. -/
theorem C2_total_dependents_code_eval :
    calculate_trigger_scores repoEmpty gSingle 2 "a" =
      .ok [("a", ⟨"a", 0, 0, 0, 0, ∅⟩)] ∧
    calculate_trigger_scores repoChain gChain 9 "a" =
      .ok [("a", ⟨"a", 3, 0, 0, 3, {"c1"}⟩),
           ("b", ⟨"b", 2, 1, 1, 4, {"c2"}⟩),
           ("c", ⟨"c", 1, 1, 2, 3, {"c3"}⟩)] :=
  ⟨by decide, by decide⟩

/-- C3 (amended): in `trigger_scores.rs` every produced entry satisfies
`score = rebuilds * (total_dependents + 1)`; in `analyzer.rs`
(`calculate_trigger_scores_map`) the produced entries instead satisfy
`score = rebuilds * immediate_dependents`. -/
theorem C3_score_formulas :
    (∀ (repo : GitRepo) (g : BazelDependencyGraph) (fuel : Nat) (seed : String)
       (m : List (String × ResolvedTarget)),
       calculate_trigger_scores repo g fuel seed = .ok m →
       ∀ q ∈ m, q.2.score = q.2.rebuilds * (q.2.total_dependents + 1)) ∧
    (∀ (repo : GitRepo) (g : BazelDependencyGraph) (fuel : Nat) (seed : String)
       (m : List (String × AResolvedTarget)),
       calculate_trigger_scores_map repo g fuel seed = .ok m →
       ∀ q ∈ m, q.2.score = q.2.rebuilds * q.2.immediate_dependents) := by
  constructor
  · intro repo g fuel seed m heq q hq
    exact ((calculate_ok_spec heq).1 q hq).2.1
  · intro repo g fuel seed m heq q hq
    exact analyzer_map_score heq q hq

/-- Counterexample for C3 as stated: `analyzer.rs` computes
`score = rebuilds * immediate_dependents`, so a lone target with one
touching commit gets `score = 0`, not `rebuilds * (total_dependents + 1) = 1`. -/
theorem C3_counterexample :
    calculate_trigger_scores_map repoSingleSrc gSingleSrc 2 "a" =
      .ok [("a", ⟨"a", 1, 0, 0, 0⟩)] ∧
    ¬ ((0 : Nat) = 1 * (0 + 1)) :=
  ⟨by decide, by decide⟩

/-- Witness for C3 at concrete inputs for both engines. -/
theorem C3_witness :
    calculate_trigger_scores repoDiamond gDiamond 9 "a" = .ok resDiamond ∧
    rtADiamond.score = rtADiamond.rebuilds * (rtADiamond.total_dependents + 1) ∧
    calculate_trigger_scores_map repoSingleSrc gSingleSrc 2 "a" =
      .ok [("a", ⟨"a", 1, 0, 0, 0⟩)] ∧
    (⟨"a", 1, 0, 0, 0⟩ : AResolvedTarget).score =
      (⟨"a", 1, 0, 0, 0⟩ : AResolvedTarget).rebuilds *
        (⟨"a", 1, 0, 0, 0⟩ : AResolvedTarget).immediate_dependents :=
  ⟨by decide,
   C3_score_formulas.1 repoDiamond gDiamond 9 "a" resDiamond (by decide)
     ("a", rtADiamond) (by decide),
   by decide,
   C3_score_formulas.2 repoSingleSrc gSingleSrc 2 "a" [("a", ⟨"a", 1, 0, 0, 0⟩)] (by decide)
     ("a", ⟨"a", 1, 0, 0, 0⟩) (by decide)⟩

/-- C7 (amended): a wildcard seed (ending in `...`, of length at least
four) runs the per-target computation for exactly the graph labels that
start with the seed minus its last FOUR characters (the marker and the
character before it, `target[..target.len() - 4]`): the result mapping
contains precisely the labels reachable from such seeds. -/
theorem C7_wildcard_prefix (repo : GitRepo) (g : BazelDependencyGraph) (fuel : Nat)
    (seed : String) (m : List (String × ResolvedTarget))
    (hw : strEndsWith seed "..." = true) (_hlen : 4 ≤ strLength seed)
    (hok : calculate_trigger_scores repo g fuel seed = .ok m) :
    ∀ x, (∃ rt, (x, rt) ∈ m) ↔
      ∃ s, (ruleOf g s).isSome ∧
        strStartsWith s (strTake seed (strLength seed - 4)) = true ∧ Reach g s x := by
  intro x
  rw [(calculate_ok_spec hok).2 x]
  constructor
  · rintro ⟨s, hs, hr⟩
    rw [seedTargets, if_pos hw] at hs
    rcases List.mem_filter.mp hs with ⟨hmem, hpref⟩
    exact ⟨s, lookup_isSome_iff_mem_keys.mpr hmem, hpref, hr⟩
  · rintro ⟨s, hsome, hpref, hr⟩
    refine ⟨s, ?_, hr⟩
    rw [seedTargets, if_pos hw]
    exact List.mem_filter.mpr ⟨lookup_isSome_iff_mem_keys.mp hsome, hpref⟩

/-- Counterexample for C7 as stated: the seed `a...` would, per the
claim, expand with three characters stripped, i.e. to labels starting
with `a`; the code strips four, obtaining the empty prefix, and computes
the label `b`, which does not start with `a`. -/
theorem C7_counterexample :
    calculate_trigger_scores repoEmpty gSingleB 2 "a..." =
      .ok [("b", ⟨"b", 0, 0, 0, 0, ∅⟩)] ∧
    strStartsWith "b" "a" = false :=
  ⟨by decide, by decide⟩

/-- Witness for C7 at a concrete wildcard seed. -/
theorem C7_witness :
    strEndsWith "a..." "..." = true ∧ 4 ≤ strLength "a..." ∧
    calculate_trigger_scores repoEmpty gSingleB 2 "a..." =
      .ok [("b", ⟨"b", 0, 0, 0, 0, ∅⟩)] ∧
    ((∃ rt, ("b", rt) ∈ [("b", (⟨"b", 0, 0, 0, 0, ∅⟩ : ResolvedTarget))]) ↔
      ∃ s, (ruleOf gSingleB s).isSome ∧
        strStartsWith s (strTake "a..." (strLength "a..." - 4)) = true ∧
        Reach gSingleB s "b") :=
  ⟨by decide, by decide, by decide,
   C7_wildcard_prefix repoEmpty gSingleB 2 "a..."
     [("b", ⟨"b", 0, 0, 0, 0, ∅⟩)] (by decide) (by decide) (by decide) "b"⟩

lemma deps_loop_err {g : BazelDependencyGraph}
    {step : String → TriggerState → RResult (CommitSet × TriggerState)}
    (hstep : StepErrTS g step) :
    ∀ (L : List String) (parent : String) (st : TriggerState) (acc : CommitSet)
      (e : TSError),
      trigger_scores_deps_loop step parent L st acc = .err e →
      ∃ x d, e = .notFound x ∧ ruleOf g x = none ∧ d ∈ L ∧ Reach g d x := by
  intro L
  induction L with
  | nil =>
    intro parent st acc e heq
    rw [trigger_scores_deps_loop] at heq
    simp at heq
  | cons d rest ih =>
    intro parent st acc e heq
    rw [trigger_scores_deps_loop] at heq
    split at heq
    next cs st1 hcall =>
      split at heq
      next m hpush =>
        obtain ⟨x, d', hx, hnone, hd', hr⟩ := ih parent _ _ e heq
        exact ⟨x, d', hx, hnone, List.mem_cons_of_mem _ hd', hr⟩
      next hpush => simp at heq
    next e0 hcall =>
      injection heq with he
      subst he
      obtain ⟨x, hx, hnone, hr⟩ := hstep d st e0 hcall
      exact ⟨x, d, hx, hnone, List.mem_cons_self _ _, hr⟩
    next msg hcall => simp at heq
    next hcall => simp at heq

lemma inner_step_err {g : BazelDependencyGraph} {repo : GitRepo} :
    ∀ fuel, StepErrTS g
      (fun d s => calculate_trigger_scores_map_inner repo g fuel d s) := by
  intro fuel
  induction fuel with
  | zero =>
    intro l st e heq
    change calculate_trigger_scores_map_inner repo g 0 l st = .err e at heq
    rw [calculate_trigger_scores_map_inner] at heq
    simp at heq
  | succ fuel ih =>
    intro l st e heq
    change calculate_trigger_scores_map_inner repo g (fuel + 1) l st = .err e at heq
    rw [calculate_trigger_scores_map_inner] at heq
    split at heq
    next commits hcache => simp at heq
    next hcache =>
      split at heq
      next hrule =>
        injection heq with he
        subst he
        exact ⟨l, rfl, hrule, Relation.ReflTransGen.refl⟩
      next rule hrule =>
        split at heq
        next all_commits st1 hloop =>
          split at heq
          next hctf => simp at heq
          next ctf hctf => simp at heq
        next e0 hloop =>
          injection heq with he
          subst he
          obtain ⟨x, d, hx, hnone, hd, hr⟩ := deps_loop_err ih rule.dep_targets l st ∅ e0 hloop
          have hdl : d ∈ depsD g l := by
            unfold depsD
            rw [show ruleOf g l = some rule from hrule]
            exact hd
          exact ⟨x, hx, hnone, reach_head_iff.mpr (Or.inr ⟨d, hdl, hr⟩)⟩
        next msg hloop => simp at heq
        next hloop => simp at heq

lemma run_seeds_err {g : BazelDependencyGraph} {repo : GitRepo} {fuel : Nat} :
    ∀ (seeds : List String) (st : TriggerState) (e : TSError),
      trigger_scores_run_seeds repo g fuel seeds st = .err e →
      ∃ x s, e = .notFound x ∧ ruleOf g x = none ∧ s ∈ seeds ∧ Reach g s x := by
  intro seeds
  induction seeds with
  | nil =>
    intro st e heq
    rw [trigger_scores_run_seeds] at heq
    simp at heq
  | cons s rest ih =>
    intro st e heq
    rw [trigger_scores_run_seeds] at heq
    split at heq
    next c st1 hcall =>
      obtain ⟨x, s', hx, hnone, hs', hr⟩ := ih st1 e heq
      exact ⟨x, s', hx, hnone, List.mem_cons_of_mem _ hs', hr⟩
    next e0 hcall =>
      injection heq with he
      subst he
      obtain ⟨x, hx, hnone, hr⟩ := inner_step_err fuel s st e0 hcall
      exact ⟨x, s, hx, hnone, List.mem_cons_self _ _, hr⟩
    next msg hcall => simp at heq
    next hcall => simp at heq

lemma calculate_err_spec {repo : GitRepo} {g : BazelDependencyGraph} {fuel : Nat}
    {target : String} {e : TSError}
    (heq : calculate_trigger_scores repo g fuel target = .err e) :
    ∃ x, e = .notFound x ∧ ruleOf g x = none ∧
      ∃ s ∈ seedTargets g target, Reach g s x := by
  rw [calculate_trigger_scores] at heq
  split at heq
  next hwild =>
    split at heq
    next hshort => simp at heq
    next hshort =>
      dsimp only at heq
      split at heq
      next st hrun =>
        obtain ⟨hinv', -, -, -⟩ := run_seeds_ok _ _ _ invTS_empty hrun
        obtain ⟨res, hres, -, -⟩ := second_pass_ok hinv' st.score_by_target (fun _ hp => hp)
        rw [hres] at heq
        simp at heq
      next e0 hrun =>
        injection heq with he
        subst he
        obtain ⟨x, s, hx, hnone, hs, hr⟩ := run_seeds_err _ _ e0 hrun
        refine ⟨x, hx, hnone, s, ?_, hr⟩
        rw [seedTargets, if_pos hwild]
        exact hs
      next msg hrun => simp at heq
      next hrun => simp at heq
  next hwild =>
    split at heq
    next c st hcall =>
      obtain ⟨hinv', -, -, -⟩ := inner_step_ok fuel target _ c st invTS_empty hcall
      obtain ⟨res, hres, -, -⟩ := second_pass_ok hinv' st.score_by_target (fun _ hp => hp)
      rw [hres] at heq
      simp at heq
    next e0 hcall =>
      injection heq with he
      subst he
      obtain ⟨x, hx, hnone, hr⟩ := inner_step_err fuel target _ e0 hcall
      refine ⟨x, hx, hnone, target, ?_, hr⟩
      rw [seedTargets, if_neg hwild]
      exact List.mem_singleton_self _
    next msg hcall => simp at heq
    next hcall => simp at heq

lemma pushDependent_some {m : List (String × Target)} {dep parent : String}
    (h : (m.lookup dep).isSome) :
    pushDependent m dep parent =
      some (m.map (fun p => if p.1 = dep then (p.1, pushEdge parent p.2) else p)) := by
  unfold pushDependent
  rw [if_pos h]

lemma deps_loop_cons_ok_eq
    {step : String → TriggerState → RResult (CommitSet × TriggerState)}
    {parent d : String} {rest : List String} {st st1 : TriggerState}
    {acc cs : CommitSet} {m : List (String × Target)}
    (hcall : step d st = .ok (cs, st1))
    (hpush : pushDependent st1.score_by_target d parent = some m) :
    trigger_scores_deps_loop step parent (d :: rest) st acc =
      trigger_scores_deps_loop step parent rest
        { st1 with score_by_target := m } (acc ∪ cs) := by
  rw [trigger_scores_deps_loop, hcall]
  dsimp only
  rw [hpush]

lemma deps_loop_total {g : BazelDependencyGraph} {repo : GitRepo} {r : String → Nat}
    {fuel : Nat}
    (htot : ∀ l st, InvTS g repo st → r l < fuel →
      (∃ c st', calculate_trigger_scores_map_inner repo g fuel l st = .ok (c, st')) ∨
      (∃ e, calculate_trigger_scores_map_inner repo g fuel l st = .err e)) :
    ∀ (L : List String) (parent : String) (st : TriggerState) (acc : CommitSet),
      InvTS g repo st → (∀ d ∈ L, r d < fuel) →
      (∃ acc' st', trigger_scores_deps_loop
          (fun dep st1 => calculate_trigger_scores_map_inner repo g fuel dep st1)
          parent L st acc = .ok (acc', st')) ∨
      (∃ e, trigger_scores_deps_loop
          (fun dep st1 => calculate_trigger_scores_map_inner repo g fuel dep st1)
          parent L st acc = .err e) := by
  intro L
  induction L with
  | nil =>
    intro parent st acc _ _
    left
    exact ⟨acc, st, by rw [trigger_scores_deps_loop]⟩
  | cons d rest ih =>
    intro parent st acc hinv hlt
    rcases htot d st hinv (hlt d (List.mem_cons_self _ _)) with ⟨c, st1, hcall⟩ | ⟨e, hcall⟩
    · obtain ⟨hinv1, -, hlook1, -⟩ := inner_step_ok fuel d st c st1 hinv hcall
      have hscoreSome : (st1.score_by_target.lookup d).isSome :=
        (hinv1.1 d).mp (by simp [hlook1])
      have hpush := @pushDependent_some _ _ parent hscoreSome
      have hst2 := invTS_push hinv1 hpush
      rcases ih parent _ (acc ∪ c) hst2
          (fun d' hd' => hlt d' (List.mem_cons_of_mem _ hd')) with
        ⟨acc', st', hrest⟩ | ⟨e, hrest⟩
      · left
        exact ⟨acc', st', by rw [deps_loop_cons_ok_eq hcall hpush]; exact hrest⟩
      · right
        exact ⟨e, by rw [deps_loop_cons_ok_eq hcall hpush]; exact hrest⟩
    · right
      exact ⟨e, by rw [trigger_scores_deps_loop, hcall]⟩

lemma inner_total {g : BazelDependencyGraph} {repo : GitRepo} {r : String → Nat}
    (hrank : RankOk g r) (hgood : GoodSources repo g) :
    ∀ fuel l st, InvTS g repo st → r l < fuel →
      (∃ c st', calculate_trigger_scores_map_inner repo g fuel l st = .ok (c, st')) ∨
      (∃ e, calculate_trigger_scores_map_inner repo g fuel l st = .err e) := by
  intro fuel
  induction fuel with
  | zero =>
    intro l st _ hl
    omega
  | succ fuel ih =>
    intro l st hinv hl
    cases hcache : st.commits_by_target.lookup l with
    | some commits =>
      left
      exact ⟨commits, st, by rw [calculate_trigger_scores_map_inner, hcache]⟩
    | none =>
      cases hrule : g.rules_by_label.lookup l with
      | none =>
        right
        exact ⟨.notFound l, by rw [calculate_trigger_scores_map_inner, hcache, hrule]⟩
      | some rule =>
        have hdepslt : ∀ d ∈ rule.dep_targets, r d < fuel := by
          intro d hd
          have hlt : r d < r l := hrank (l, rule) (lookup_mem hrule) d hd
          omega
        rcases deps_loop_total ih rule.dep_targets l st ∅ hinv hdepslt with
          ⟨acc', st1, hlp⟩ | ⟨e, hlp⟩
        · have hgoodl := hgood (l, rule) (lookup_mem hrule)
          cases hctf : commits_touching_files repo rule.source_files with
          | none => exact absurd hctf hgoodl
          | some ctf =>
            left
            refine ⟨acc' ∪ ctf,
              ⟨(l, acc' ∪ ctf) :: st1.commits_by_target,
               (l, ctf) :: st1.commits_specific_to_target,
               (l, ⟨l, (acc' ∪ ctf).card, []⟩) :: st1.score_by_target⟩, ?_⟩
            rw [calculate_trigger_scores_map_inner, hcache, hrule]
            dsimp only
            rw [hlp]
            dsimp only
            rw [hctf]
        · right
          refine ⟨e, ?_⟩
          rw [calculate_trigger_scores_map_inner, hcache, hrule]
          dsimp only
          rw [hlp]

lemma run_seeds_total {g : BazelDependencyGraph} {repo : GitRepo} {r : String → Nat}
    {fuel : Nat} (hrank : RankOk g r) (hgood : GoodSources repo g)
    (hfuel : ∀ l, r l < fuel) :
    ∀ (seeds : List String) (st : TriggerState), InvTS g repo st →
      (∃ st', trigger_scores_run_seeds repo g fuel seeds st = .ok st') ∨
      (∃ e, trigger_scores_run_seeds repo g fuel seeds st = .err e) := by
  intro seeds
  induction seeds with
  | nil =>
    intro st _
    left
    exact ⟨st, by rw [trigger_scores_run_seeds]⟩
  | cons s rest ih =>
    intro st hinv
    rcases inner_total hrank hgood fuel s st hinv (hfuel s) with ⟨c, st1, hcall⟩ | ⟨e, hcall⟩
    · obtain ⟨hinv1, -, -, -⟩ := inner_step_ok fuel s st c st1 hinv hcall
      rcases ih st1 hinv1 with ⟨st', hrest⟩ | ⟨e, hrest⟩
      · left
        exact ⟨st', by rw [trigger_scores_run_seeds, hcall]; exact hrest⟩
      · right
        exact ⟨e, by rw [trigger_scores_run_seeds, hcall]; exact hrest⟩
    · right
      exact ⟨e, by rw [trigger_scores_run_seeds, hcall]⟩

lemma calculate_total {repo : GitRepo} {g : BazelDependencyGraph} {r : String → Nat}
    {fuel : Nat} {target : String}
    (hrank : RankOk g r) (hgood : GoodSources repo g) (hfuel : ∀ l, r l < fuel)
    (hwildlen : strEndsWith target "..." = true → 4 ≤ strLength target) :
    (∃ m, calculate_trigger_scores repo g fuel target = .ok m) ∨
    (∃ e, calculate_trigger_scores repo g fuel target = .err e) := by
  rw [calculate_trigger_scores]
  by_cases hw : strEndsWith target "..." = true
  · rw [if_pos hw]
    have hlen := hwildlen hw
    rw [if_neg (by omega : ¬ strLength target < 4)]
    dsimp only
    rcases run_seeds_total hrank hgood hfuel
        (((g.rules_by_label.map Prod.fst).filter
          (fun t => strStartsWith t (strTake target (strLength target - 4)))))
        ⟨[], [], []⟩ invTS_empty with ⟨st', hrun⟩ | ⟨e, hrun⟩
    · obtain ⟨hinv', -, -, -⟩ := run_seeds_ok _ _ _ invTS_empty hrun
      obtain ⟨res, hres, -, -⟩ := second_pass_ok hinv' st'.score_by_target (fun _ hp => hp)
      left
      refine ⟨res, ?_⟩
      rw [hrun]
      exact hres
    · right
      exact ⟨e, by rw [hrun]⟩
  · rw [if_neg hw]
    rcases inner_total hrank hgood fuel target ⟨[], [], []⟩ invTS_empty (hfuel target) with
      ⟨c, st, hcall⟩ | ⟨e, hcall⟩
    · obtain ⟨hinv', -, -, -⟩ := inner_step_ok fuel target _ c st invTS_empty hcall
      obtain ⟨res, hres, -, -⟩ := second_pass_ok hinv' st.score_by_target (fun _ hp => hp)
      left
      refine ⟨res, ?_⟩
      rw [hcall]
      exact hres
    · right
      exact ⟨e, by rw [hcall]⟩

lemma closed_reach_present {g : BazelDependencyGraph} (hclosed : ClosedGraph g)
    {s x : String} (hs : (ruleOf g s).isSome) (hr : Reach g s x) :
    (ruleOf g x).isSome := by
  induction hr with
  | refl => exact hs
  | tail _ hstep ih =>
    rcases Option.isSome_iff_exists.mp ih with ⟨e, he⟩
    unfold DepStep depsD at hstep
    rw [he] at hstep
    simp only [Option.elim] at hstep
    exact hclosed (_, e) (lookup_mem he) _ hstep

lemma ctf_none_of_bad {repo : GitRepo} :
    ∀ {fs : List String},
      (∃ sf ∈ fs, strStartsWith sf "@" = false ∧
        relative_path_of_source_file sf = none) →
      commits_touching_files repo fs = none := by
  intro fs
  induction fs with
  | nil => rintro ⟨sf, hsf, -⟩; simp at hsf
  | cons sf0 rest ih =>
    rintro ⟨sf, hsf, hat, hpath⟩
    rw [commits_touching_files]
    rcases List.mem_cons.mp hsf with rfl | hsf
    · rw [hat]
      simp only [Bool.false_eq_true, if_false]
      rw [hpath]
    · cases hat0 : strStartsWith sf0 "@" with
      | true =>
        simp only [hat0, if_pos]
        exact ih ⟨sf, hsf, hat, hpath⟩
      | false =>
        simp only [hat0, Bool.false_eq_true, if_false]
        cases hp0 : relative_path_of_source_file sf0 with
        | none => rfl
        | some p0 =>
          rw [ih ⟨sf, hsf, hat, hpath⟩]
          rfl

lemma ctf_some_paths_ok {repo : GitRepo} :
    ∀ {fs : List String} {c : CommitSet},
      commits_touching_files repo fs = some c →
      ∀ sf ∈ fs, strStartsWith sf "@" = false →
        (relative_path_of_source_file sf).isSome := by
  intro fs
  induction fs with
  | nil => intro c _ sf hsf; simp at hsf
  | cons sf0 rest ih =>
    intro c heq sf hsf hat
    rw [commits_touching_files] at heq
    rcases List.mem_cons.mp hsf with rfl | hsf
    · rw [hat] at heq
      simp only [Bool.false_eq_true, if_false] at heq
      cases hp : relative_path_of_source_file sf with
      | none => rw [hp] at heq; cases heq
      | some p => simp
    · cases hat0 : strStartsWith sf0 "@" with
      | true =>
        rw [hat0] at heq
        simp only [if_pos] at heq
        exact ih heq sf hsf hat
      | false =>
        rw [hat0] at heq
        simp only [Bool.false_eq_true, if_false] at heq
        cases hp0 : relative_path_of_source_file sf0 with
        | none => rw [hp0] at heq; cases heq
        | some p0 =>
          rw [hp0] at heq
          cases hrest : commits_touching_files repo rest with
          | none => rw [hrest] at heq; cases heq
          | some crest => exact ih hrest sf hsf hat

/-- C8: under the claim's setting (acyclic graph via a rank bounded by
the fuel, normalizable source files, a well-formed wildcard seed),
`calculate_trigger_scores` returns an error exactly when some label
referenced during the computation — a seed target or a label reachable
from one — is absent from `rules_by_label`; every such error is the
`NotFound` of such a label; an error excludes a result mapping; and a
normalized source path absent from the Commit History Index causes no
error and contributes zero commits. -/
theorem C8_error_iff_missing (repo : GitRepo) (g : BazelDependencyGraph)
    (fuel : Nat) (target : String) (r : String → Nat)
    (hrank : RankOk g r) (hgood : GoodSources repo g) (hfuel : ∀ l, r l < fuel)
    (hwildlen : strEndsWith target "..." = true → 4 ≤ strLength target) :
    ((∃ e, calculate_trigger_scores repo g fuel target = .err e) ↔
      (∃ x, ruleOf g x = none ∧ ∃ s ∈ seedTargets g target, Reach g s x)) ∧
    (∀ e, calculate_trigger_scores repo g fuel target = .err e →
      ∃ x, e = .notFound x ∧ ruleOf g x = none ∧
        ∃ s ∈ seedTargets g target, Reach g s x) ∧
    (∀ e m, calculate_trigger_scores repo g fuel target = .err e →
      calculate_trigger_scores repo g fuel target ≠ .ok m) ∧
    (∀ (repo' : GitRepo) (sf path : String), strStartsWith sf "@" = false →
      relative_path_of_source_file sf = some path →
      repo'.files.lookup path = none →
      commits_touching_files repo' [sf] = some ∅) := by
  refine ⟨⟨?_, ?_⟩, ?_, ?_, ?_⟩
  · rintro ⟨e, he⟩
    obtain ⟨x, -, hnone, hs⟩ := calculate_err_spec he
    exact ⟨x, hnone, hs⟩
  · rintro ⟨x, hnone, s, hs, hr⟩
    rcases calculate_total hrank hgood hfuel hwildlen with ⟨m, hok⟩ | ⟨e, he⟩
    · exfalso
      obtain ⟨rt, hrt⟩ := ((calculate_ok_spec hok).2 x).mpr ⟨s, hs, hr⟩
      obtain ⟨-, -, e0, he0, -⟩ := (calculate_ok_spec hok).1 (x, rt) hrt
      rw [show ruleOf g (x, rt).1 = ruleOf g x from rfl] at he0
      rw [hnone] at he0
      cases he0
    · exact ⟨e, he⟩
  · intro e he
    exact calculate_err_spec he
  · intro e m he hok
    rw [he] at hok
    cases hok
  · intro repo' sf path hat hpath hlookup
    rw [commits_touching_files, hat]
    simp only [Bool.false_eq_true, if_false]
    rw [hpath]
    dsimp only
    rw [hlookup, commits_touching_files]
    simp

/-- Witness for C8 on a graph whose only rule depends on the absent
label `zz`. -/
theorem C8_witness :
    RankOk gMissing rankMissing ∧ GoodSources repoEmpty gMissing ∧
    (∀ l, rankMissing l < 2) ∧
    ((∃ e, calculate_trigger_scores repoEmpty gMissing 2 "a" = .err e) ↔
      (∃ x, ruleOf gMissing x = none ∧
        ∃ s ∈ seedTargets gMissing "a", Reach gMissing s x)) :=
  ⟨by decide, by decide,
   by intro l; simp only [rankMissing]; split <;> omega,
   (C8_error_iff_missing repoEmpty gMissing 2 "a" rankMissing (by decide) (by decide)
     (by intro l; simp only [rankMissing]; split <;> omega)
     (by intro h; exact absurd h (by decide))).1⟩

/-- C10: source-file normalization is partial at the public interface:
whenever `calculate_trigger_scores` succeeds, every computed target's
non-`@` source-file labels normalized (so each contains a `:`), and a
computed target whose source files include a non-`@` label without `:`
makes the computation panic (`crash`, an out-of-bounds index) rather
than return an error. -/
theorem C10_source_normalization_partial :
    (∀ (repo : GitRepo) (g : BazelDependencyGraph) (fuel : Nat) (seed : String)
       (m : List (String × ResolvedTarget)),
       calculate_trigger_scores repo g fuel seed = .ok m →
       ∀ q ∈ m, ∀ e, ruleOf g q.1 = some e →
         ∀ sf ∈ e.source_files, strStartsWith sf "@" = false →
           (relative_path_of_source_file sf).isSome) ∧
    (∀ (repo : GitRepo) (g : BazelDependencyGraph) (fuel : Nat) (seed : String)
       (e : Entry),
       ruleOf g seed = some e → e.dep_targets = [] →
       (∃ sf ∈ e.source_files, strStartsWith sf "@" = false ∧
          relative_path_of_source_file sf = none) →
       strEndsWith seed "..." = false →
       calculate_trigger_scores repo g (fuel + 1) seed =
         .crash "byte index out of bounds of source file label") := by
  constructor
  · intro repo g fuel seed m hok q hq e he sf hsf hat
    obtain ⟨-, -, e0, he0, hctf⟩ := (calculate_ok_spec hok).1 q hq
    rw [he] at he0
    injection he0 with he0
    subst he0
    exact ctf_some_paths_ok hctf sf hsf hat
  · intro repo g fuel seed e hrule hdeps hbad hnw
    have hctf : commits_touching_files repo e.source_files = none := ctf_none_of_bad hbad
    have hinner : calculate_trigger_scores_map_inner repo g (fuel + 1) seed ⟨[], [], []⟩ =
        .crash "byte index out of bounds of source file label" := by
      rw [calculate_trigger_scores_map_inner]
      simp only [List.lookup_nil]
      rw [show g.rules_by_label.lookup seed = some e from hrule]
      dsimp only
      rw [hdeps, trigger_scores_deps_loop]
      dsimp only
      rw [hctf]
    rw [calculate_trigger_scores]
    rw [if_neg (by simp [hnw])]
    rw [hinner]

/-- Witness for C10: a target whose only source file lacks a `:`. -/
theorem C10_witness :
    ruleOf gBadSource "a" = some ⟨[], ["nofile"]⟩ ∧
    (∃ sf ∈ (⟨[], ["nofile"]⟩ : Entry).source_files,
      strStartsWith sf "@" = false ∧ relative_path_of_source_file sf = none) ∧
    calculate_trigger_scores repoEmpty gBadSource 1 "a" =
      .crash "byte index out of bounds of source file label" :=
  ⟨by decide, by decide,
   C10_source_normalization_partial.2 repoEmpty gBadSource 0 "a" ⟨[], ["nofile"]⟩
     (by decide) rfl (by decide) (by decide)⟩

lemma sdiff_union_sdiff {s t u : Finset String} (hst : s ⊆ t) (htu : t ⊆ u) :
    u \ s = (t \ s) ∪ (u \ t) := by
  ext x
  simp only [Finset.mem_union, Finset.mem_sdiff]
  constructor
  · rintro ⟨hxu, hxs⟩
    by_cases hxt : x ∈ t
    · exact Or.inl ⟨hxt, hxs⟩
    · exact Or.inr ⟨hxu, hxt⟩
  · rintro (⟨hxt, hxs⟩ | ⟨hxu, hxt⟩)
    · exact ⟨htu hxt, hxs⟩
    · exact ⟨hxu, fun hxs => hxt (hst hxs)⟩

lemma sdiff_sum_split {s t u : Finset String} (hst : s ⊆ t) (htu : t ⊆ u)
    (f : String → Nat) :
    Finset.sum (u \ s) f = Finset.sum (t \ s) f + Finset.sum (u \ t) f := by
  rw [sdiff_union_sdiff hst htu]
  refine Finset.sum_union ?_
  rw [Finset.disjoint_left]
  intro a ha hb
  rcases Finset.mem_sdiff.mp ha with ⟨hat, -⟩
  rcases Finset.mem_sdiff.mp hb with ⟨-, hat'⟩
  exact hat' hat

lemma sdiff_insert_split {d : String} {seen seen₁ : Finset String}
    (hd : d ∉ seen) (hsub : insert d seen ⊆ seen₁) :
    seen₁ \ seen = insert d (seen₁ \ insert d seen) := by
  ext x
  simp only [Finset.mem_sdiff, Finset.mem_insert]
  constructor
  · rintro ⟨hx1, hxs⟩
    by_cases hxd : x = d
    · exact Or.inl hxd
    · exact Or.inr ⟨hx1, fun h => h.elim hxd hxs⟩
  · rintro (rfl | ⟨hx1, hxs⟩)
    · exact ⟨hsub (Finset.mem_insert_self _ _), hd⟩
    · exact ⟨hx1, fun h => hxs (Or.inr h)⟩

lemma fdCnt_nil {g : BazelDependencyGraph} {L : List String} {seen : Finset String}
    {v : String} : fdCnt g L seen seen v = L.count v := by
  unfold fdCnt
  simp

lemma fdCnt_cons_seen {g : BazelDependencyGraph} {d v : String} {rest : List String}
    {seen seen' : Finset String} :
    fdCnt g (d :: rest) seen seen' v =
      (if v = d then 1 else 0) + fdCnt g rest seen seen' v := by
  unfold fdCnt
  rw [List.count_cons]
  have hite : (if (d == v) = true then (1 : Nat) else 0) = if v = d then 1 else 0 := by
    by_cases h : d = v
    · subst h; simp
    · simp [h, Ne.symm h]
  rw [hite]
  omega

lemma fdCnt_decomp {g : BazelDependencyGraph} {d : String} {rest : List String}
    {seen seen₁ seen' : Finset String}
    (hd : d ∉ seen) (hsub1 : insert d seen ⊆ seen₁) (hsub2 : seen₁ ⊆ seen')
    (v : String) :
    fdCnt g (d :: rest) seen seen' v =
      (if v = d then 1 else 0) + fdCnt g (depsD g d) (insert d seen) seen₁ v +
        fdCnt g rest seen₁ seen' v := by
  unfold fdCnt
  have h1 : seen ⊆ seen₁ := (Finset.subset_insert d seen).trans hsub1
  rw [sdiff_sum_split h1 hsub2, sdiff_insert_split hd hsub1,
    Finset.sum_insert (by simp), List.count_cons]
  have hite : (if (d == v) = true then (1 : Nat) else 0) = if v = d then 1 else 0 := by
    by_cases h : d = v
    · subst h; simp
    · simp [h, Ne.symm h]
  rw [hite]
  omega

lemma fd_loop_ok {g : BazelDependencyGraph}
    {step : String → Finset String → Finset String →
      RResult (Finset String × Finset String)}
    (hstep : FdStepOk g step) :
    ∀ (L : List String) (seen dups seen' dups' : Finset String),
      find_duplicate_deps_loop step L seen dups = .ok (seen', dups') →
      FdLC g L seen dups seen' dups' := by
  intro L
  induction L with
  | nil =>
    intro seen dups seen' dups' heq
    rw [find_duplicate_deps_loop] at heq
    injection heq with h
    injection h with h1 h2
    subst h1
    subst h2
    unfold FdLC
    refine ⟨Finset.Subset.refl _, Finset.Subset.refl _, ?_, ?_, ?_, ?_⟩
    · intro v hv
      simp only [fdCnt_nil, List.count_nil]
      constructor
      · intro h
        exact absurd h hv
      · intro h
        omega
    · intro v
      simp only [fdCnt_nil, List.count_nil]
      constructor
      · intro h
        exact Or.inl h
      · rintro (h | h | ⟨-, h⟩)
        · exact h
        · omega
        · omega
    · intro v hv
      exact Or.inl hv
    · intro u hu hus
      exact absurd hu hus
  | cons d rest ih =>
    intro seen dups seen' dups' heq
    by_cases hds : d ∈ seen
    · rw [find_duplicate_deps_loop, if_pos hds] at heq
      obtain ⟨ha1, ha2, hb, hc, hd', he⟩ := ih seen (insert d dups) seen' dups' heq
      unfold FdLC
      refine ⟨ha1, (Finset.subset_insert _ _).trans ha2, ?_, ?_, ?_, he⟩
      · intro v hv
        rw [fdCnt_cons_seen, if_neg (by intro h; subst h; exact hv hds), Nat.zero_add]
        exact hb v hv
      · intro v
        rw [fdCnt_cons_seen, hc v]
        by_cases hvd : v = d
        · subst hvd
          rw [if_pos rfl]
          constructor
          · intro _
            exact Or.inr (Or.inr ⟨hds, by omega⟩)
          · intro _
            exact Or.inl (Finset.mem_insert_self _ _)
        · rw [if_neg hvd, Nat.zero_add]
          constructor
          · rintro (hv | h | h)
            · rcases Finset.mem_insert.mp hv with h' | hv'
              · exact absurd h' hvd
              · exact Or.inl hv'
            · exact Or.inr (Or.inl h)
            · exact Or.inr (Or.inr h)
          · rintro (hv | h | h)
            · exact Or.inl (Finset.mem_insert_of_mem hv)
            · exact Or.inr (Or.inl h)
            · exact Or.inr (Or.inr h)
      · intro v hv
        rcases hd' v hv with h | ⟨e, he', hr⟩
        · exact Or.inl h
        · exact Or.inr ⟨e, List.mem_cons_of_mem _ he', hr⟩
    · rw [find_duplicate_deps_loop, if_neg hds] at heq
      split at heq
      next seen₁ dups₁ hcall =>
        obtain ⟨hrule, hsc⟩ := hstep d (insert d seen) dups seen₁ dups₁ hcall
        obtain ⟨hs1, hd1, hsb, hsc', hsd, hse⟩ := hsc
        obtain ⟨hs2, hd2, hrb, hrc, hrd, hre⟩ := ih seen₁ dups₁ seen' dups' heq
        have hsub1 : insert d seen ⊆ seen₁ := hs1
        have hsub2 : seen₁ ⊆ seen' := hs2
        have hseen_sub : seen ⊆ seen' :=
          ((Finset.subset_insert d seen).trans hsub1).trans hsub2
        have hdec := fun v => @fdCnt_decomp g d rest seen seen₁ seen' hds hsub1 hsub2 v
        unfold FdLC
        refine ⟨hseen_sub, hd1.trans hd2, ?_, ?_, ?_, ?_⟩
        · intro v hv
          rw [hdec v]
          by_cases hvd : v = d
          · subst hvd
            rw [if_pos rfl]
            constructor
            · intro _
              omega
            · intro _
              exact hsub2 (hsub1 (Finset.mem_insert_self _ _))
          · rw [if_neg hvd, Nat.zero_add]
            have hvins : v ∉ insert d seen := by
              intro hx
              rcases Finset.mem_insert.mp hx with h | h
              · exact hvd h
              · exact hv h
            by_cases hv1 : v ∈ seen₁
            · have h1 : 1 ≤ fdCnt g (depsD g d) (insert d seen) seen₁ v :=
                (hsb v hvins).mp hv1
              constructor
              · intro _
                omega
              · intro _
                exact hsub2 hv1
            · have hb1 : ¬ 1 ≤ fdCnt g (depsD g d) (insert d seen) seen₁ v :=
                fun h => hv1 ((hsb v hvins).mpr h)
              have hiter := hrb v hv1
              constructor
              · intro hvs'
                have h2 := hiter.mp hvs'
                omega
              · intro h
                exact hiter.mpr (by omega)
        · intro v
          rw [hdec v]
          have hDiff := hsc' v
          have hRest := hrc v
          by_cases hvd : v = d
          · subst hvd
            rw [if_pos rfl]
            have hdins : v ∈ insert v seen := Finset.mem_insert_self _ _
            have hd1' : v ∈ seen₁ := hsub1 hdins
            constructor
            · intro hdd'
              rcases hRest.mp hdd' with h1 | h2 | ⟨-, h3⟩
              · rcases hDiff.mp h1 with h4 | h5 | ⟨-, h6⟩
                · exact Or.inl h4
                · exact Or.inr (Or.inl (by omega))
                · exact Or.inr (Or.inl (by omega))
              · exact Or.inr (Or.inl (by omega))
              · exact Or.inr (Or.inl (by omega))
            · rintro (h1 | h2 | ⟨h3, -⟩)
              · exact hRest.mpr (Or.inl (hDiff.mpr (Or.inl h1)))
              · by_cases hD : 1 ≤ fdCnt g (depsD g v) (insert v seen) seen₁ v
                · exact hRest.mpr (Or.inl (hDiff.mpr (Or.inr (Or.inr ⟨hdins, hD⟩))))
                · exact hRest.mpr (Or.inr (Or.inr ⟨hd1', by omega⟩))
              · exact absurd h3 hds
          · rw [if_neg hvd, Nat.zero_add]
            by_cases hvseen : v ∈ seen
            · have hvins : v ∈ insert d seen := Finset.mem_insert_of_mem hvseen
              have hv1 : v ∈ seen₁ := hsub1 hvins
              constructor
              · intro hvd'
                rcases hRest.mp hvd' with h1 | h2 | ⟨-, h3⟩
                · rcases hDiff.mp h1 with h4 | h5 | ⟨-, h6⟩
                  · exact Or.inl h4
                  · exact Or.inr (Or.inl (by omega))
                  · exact Or.inr (Or.inr ⟨hvseen, by omega⟩)
                · exact Or.inr (Or.inl (by omega))
                · exact Or.inr (Or.inr ⟨hvseen, by omega⟩)
              · rintro (h1 | h2 | ⟨-, h3⟩)
                · exact hRest.mpr (Or.inl (hDiff.mpr (Or.inl h1)))
                · by_cases hD : 1 ≤ fdCnt g (depsD g d) (insert d seen) seen₁ v
                  · exact hRest.mpr (Or.inl (hDiff.mpr (Or.inr (Or.inr ⟨hvins, hD⟩))))
                  · exact hRest.mpr (Or.inr (Or.inl (by omega)))
                · by_cases hD : 1 ≤ fdCnt g (depsD g d) (insert d seen) seen₁ v
                  · exact hRest.mpr (Or.inl (hDiff.mpr (Or.inr (Or.inr ⟨hvins, hD⟩))))
                  · exact hRest.mpr (Or.inr (Or.inr ⟨hv1, by omega⟩))
            · have hvins : v ∉ insert d seen := by
                intro hx
                rcases Finset.mem_insert.mp hx with h | h
                · exact hvd h
                · exact hvseen h
              have hseen1_iff := hsb v hvins
              constructor
              · intro hvd'
                rcases hRest.mp hvd' with h1 | h2 | ⟨hv1, h3⟩
                · rcases hDiff.mp h1 with h4 | h5 | ⟨hbad, -⟩
                  · exact Or.inl h4
                  · exact Or.inr (Or.inl (by omega))
                  · exact absurd hbad hvins
                · exact Or.inr (Or.inl (by omega))
                · have hD : 1 ≤ fdCnt g (depsD g d) (insert d seen) seen₁ v :=
                    hseen1_iff.mp hv1
                  exact Or.inr (Or.inl (by omega))
              · rintro (h1 | h2 | ⟨hbad, -⟩)
                · exact hRest.mpr (Or.inl (hDiff.mpr (Or.inl h1)))
                · by_cases hD2 : 2 ≤ fdCnt g (depsD g d) (insert d seen) seen₁ v
                  · exact hRest.mpr (Or.inl (hDiff.mpr (Or.inr (Or.inl hD2))))
                  · by_cases hD1 : 1 ≤ fdCnt g (depsD g d) (insert d seen) seen₁ v
                    · have hv1 : v ∈ seen₁ := hseen1_iff.mpr hD1
                      exact hRest.mpr (Or.inr (Or.inr ⟨hv1, by omega⟩))
                    · exact hRest.mpr (Or.inr (Or.inl (by omega)))
                · exact absurd hbad hvseen
        · intro v hv
          rcases hrd v hv with hv1 | ⟨e, he, hr⟩
          · rcases hsd v hv1 with hvins | ⟨e, he, hr⟩
            · rcases Finset.mem_insert.mp hvins with h | h
              · subst h
                exact Or.inr ⟨v, List.mem_cons_self _ _, Relation.ReflTransGen.refl⟩
              · exact Or.inl h
            · exact Or.inr ⟨d, List.mem_cons_self _ _, Relation.ReflTransGen.head he hr⟩
          · exact Or.inr ⟨e, List.mem_cons_of_mem _ he, hr⟩
        · intro u hu hus
          by_cases hu1 : u ∈ seen₁
          · by_cases huins : u ∈ insert d seen
            · rcases Finset.mem_insert.mp huins with h | h
              · subst h
                exact hrule
              · exact absurd h hus
            · exact hse u hu1 huins
          · exact hre u hu hu1
      next e hcall => simp at heq
      next msg hcall => simp at heq
      next hcall => simp at heq

lemma fd_visit_ok {g : BazelDependencyGraph} :
    ∀ fuel, FdStepOk g (fun d s dp => find_duplicate_deps_visit g fuel d s dp) := by
  intro fuel
  induction fuel with
  | zero =>
    intro d seen dups seen' dups' heq
    change find_duplicate_deps_visit g 0 d seen dups = _ at heq
    rw [find_duplicate_deps_visit] at heq
    simp at heq
  | succ fuel ih =>
    intro d seen dups seen' dups' heq
    change find_duplicate_deps_visit g (fuel + 1) d seen dups = _ at heq
    rw [find_duplicate_deps_visit] at heq
    cases hrule : g.rules_by_label.lookup d with
    | none =>
      rw [hrule] at heq
      simp at heq
    | some rule =>
      rw [hrule] at heq
      have hlc := fd_loop_ok ih rule.dep_targets seen dups seen' dups' heq
      have hdeps : depsD g d = rule.dep_targets := by
        unfold depsD
        rw [show ruleOf g d = some rule from hrule]
        rfl
      refine ⟨by rw [show ruleOf g d = some rule from hrule]; rfl, ?_⟩
      rw [hdeps]
      exact hlc

lemma rank_lt_of_step {g : BazelDependencyGraph} {r : String → Nat}
    (hrank : RankOk g r) {a b : String} (h : DepStep g a b) : r b < r a := by
  unfold DepStep depsD at h
  cases he : ruleOf g a with
  | none =>
    rw [he] at h
    simp [Option.elim] at h
  | some e =>
    rw [he] at h
    simp only [Option.elim] at h
    exact hrank (a, e) (lookup_mem he) b h

lemma rank_le_of_reach {g : BazelDependencyGraph} {r : String → Nat}
    (hrank : RankOk g r) {x y : String} (h : Reach g x y) : r y ≤ r x := by
  induction h with
  | refl => exact Nat.le_refl _
  | tail hxb hstep ih =>
    have := rank_lt_of_step hrank hstep
    omega

/-- A successful `find_duplicate_deps` run on an acyclic graph returns
exactly the labels with at least two incoming dependency edges from
inside the seed's reachability closure. -/
lemma fd_dups_iff {g : BazelDependencyGraph} {r : String → Nat} {fuel : Nat}
    {T : String} {dups : Finset String}
    (hrank : RankOk g r)
    (heq : find_duplicate_deps g fuel T = .ok dups) :
    ∀ v, v ∈ dups ↔ 2 ≤ inDegreeInClosure g T v := by
  unfold find_duplicate_deps at heq
  cases hvis : find_duplicate_deps_visit g fuel T ∅ ∅ with
  | ok p =>
    rcases p with ⟨seen', dups'⟩
    rw [hvis] at heq
    injection heq with h
    subst h
    obtain ⟨hruleT, hlc⟩ := fd_visit_ok fuel T ∅ ∅ seen' dups' hvis
    obtain ⟨-, -, hb, hc, hd, -⟩ := hlc
    have hcnt_L : ∀ x, x ∈ depsD g T → x ∈ seen' := by
      intro x hx
      refine (hb x (Finset.not_mem_empty x)).mpr ?_
      unfold fdCnt
      have h1 : 0 < List.count x (depsD g T) := List.count_pos_iff.mpr hx
      omega
    have hcnt_step : ∀ u x, u ∈ seen' → x ∈ depsD g u → x ∈ seen' := by
      intro u x hu hx
      refine (hb x (Finset.not_mem_empty x)).mpr ?_
      unfold fdCnt
      have h1 : 0 < List.count x (depsD g u) := List.count_pos_iff.mpr hx
      have h2 : List.count x (depsD g u) ≤
          Finset.sum ( seen' \ ∅) (fun w => List.count x (depsD g w)) := by
        refine Finset.single_le_sum (f := fun w => List.count x (depsD g w))
          (fun i _ => Nat.zero_le _) ?_
        rw [Finset.sdiff_empty]
        exact hu
      omega
    have hreach_mem : ∀ e, e ∈ depsD g T → ∀ x, Reach g e x → x ∈ seen' := by
      intro e he x hr
      induction hr with
      | refl => exact hcnt_L e he
      | tail hab hstep ih => exact hcnt_step _ _ ih hstep
    have hseen_iff : ∀ x, x ∈ seen' ↔ ∃ e ∈ depsD g T, Reach g e x := by
      intro x
      constructor
      · intro hx
        rcases hd x hx with h | h
        · exact absurd h (Finset.not_mem_empty x)
        · exact h
      · rintro ⟨e, he, hr⟩
        exact hreach_mem e he x hr
    have hTnot : T ∉ seen' := by
      intro hT
      rcases (hseen_iff T).mp hT with ⟨e, he, hr⟩
      have h1 : r e < r T := rank_lt_of_step hrank he
      have h2 : r T ≤ r e := rank_le_of_reach hrank hr
      omega
    have hclos : insert T seen' = reachClos g T := by
      ext x
      rw [Finset.mem_insert, mem_reachClos_iff, reach_head_iff, hseen_iff x]
    have hdeg : ∀ v, inDegreeInClosure g T v = fdCnt g (depsD g T) ∅ seen' v := by
      intro v
      unfold inDegreeInClosure fdCnt
      rw [← hclos, Finset.sum_insert hTnot, Finset.sdiff_empty]
    intro v
    rw [hdeg v, hc v]
    constructor
    · rintro (h | h | ⟨h, -⟩)
      · exact absurd h (Finset.not_mem_empty v)
      · exact h
      · exact absurd h (Finset.not_mem_empty v)
    · intro h
      exact Or.inr (Or.inl h)
  | err e =>
    rw [hvis] at heq
    simp at heq
  | crash msg =>
    rw [hvis] at heq
    simp at heq
  | nofuel =>
    rw [hvis] at heq
    simp at heq

/-- A label listed at least twice in the seed's own dependency list is
always classified as a duplicate (no acyclicity needed). -/
lemma fd_double_listed {g : BazelDependencyGraph} {fuel : Nat}
    {T : String} {dups : Finset String}
    (heq : find_duplicate_deps g fuel T = .ok dups) :
    ∀ d, 2 ≤ List.count d (depsD g T) → d ∈ dups := by
  unfold find_duplicate_deps at heq
  cases hvis : find_duplicate_deps_visit g fuel T ∅ ∅ with
  | ok p =>
    rcases p with ⟨seen', dups'⟩
    rw [hvis] at heq
    injection heq with h
    subst h
    obtain ⟨-, hlc⟩ := fd_visit_ok fuel T ∅ ∅ seen' dups' hvis
    obtain ⟨-, -, -, hc, -, -⟩ := hlc
    intro d hcnt
    refine (hc d).mpr (Or.inr (Or.inl ?_))
    unfold fdCnt
    omega
  | err e =>
    rw [hvis] at heq
    simp at heq
  | crash msg =>
    rw [hvis] at heq
    simp at heq
  | nofuel =>
    rw [hvis] at heq
    simp at heq

/-- C4: for every acyclic dependency graph (witnessed by a rank
function) and every seed `T`, a successful `find_duplicate_deps` run
returns exactly the labels with two or more incoming dependency edges
from inside `T`'s dependency closure (edges counted with multiplicity);
a label with at most one incoming edge is never in the result, and the
characterisation is in terms of the graph alone, so the result set does
not depend on the traversal order. -/
theorem C4_duplicates_iff_two_incoming_edges (g : BazelDependencyGraph)
    (r : String → Nat) (fuel : Nat) (T : String) (dups : Finset String)
    (hrank : RankOk g r)
    (heq : find_duplicate_deps g fuel T = .ok dups) :
    ∀ v, v ∈ dups ↔ 2 ≤ inDegreeInClosure g T v :=
  fd_dups_iff hrank heq

/-- Witness for C4 on the diamond graph: the duplicate set is exactly
`{"d"}`, the in-degree of `"d"` inside the closure is 2, and the
in-degree of `"b"` is 1. -/
theorem C4_witness :
    (RankOk gDiamond rankDiamond ∧
      find_duplicate_deps gDiamond 9 "a" = .ok {"d"}) ∧
    ("d" ∈ ({"d"} : Finset String) ↔ 2 ≤ inDegreeInClosure gDiamond "a" "d") ∧
    ("b" ∈ ({"d"} : Finset String) ↔ 2 ≤ inDegreeInClosure gDiamond "a" "b") :=
  ⟨⟨by decide, by decide⟩,
   C4_duplicates_iff_two_incoming_edges gDiamond rankDiamond 9 "a" {"d"}
     (by decide) (by decide) "d",
   C4_duplicates_iff_two_incoming_edges gDiamond rankDiamond 9 "a" {"d"}
     (by decide) (by decide) "b"⟩

lemma gu_loop_ok {g : BazelDependencyGraph} {S : Finset String}
    {step : String → Finset String → RResult (Finset String)}
    (hstep : GuStepOk g S step) :
    ∀ (L : List String) (acc acc' : Finset String),
      get_unique_deps_loop step L acc = .ok acc' →
      acc ⊆ acc' ∧ (∀ v, v ∈ acc' ↔ v ∈ acc ∨ ∃ d ∈ L, AvoidPath g S d v) := by
  intro L
  induction L with
  | nil =>
    intro acc acc' heq
    rw [get_unique_deps_loop] at heq
    injection heq with h
    subst h
    refine ⟨Finset.Subset.refl _, ?_⟩
    intro v
    constructor
    · exact Or.inl
    · rintro (hv | ⟨d, hd, -⟩)
      · exact hv
      · exact absurd hd (List.not_mem_nil d)
  | cons d rest ih =>
    intro acc acc' heq
    rw [get_unique_deps_loop] at heq
    split at heq
    next acc1 hcall =>
      obtain ⟨hsub1, hiff1⟩ := hstep d acc acc1 hcall
      obtain ⟨hsub2, hiff2⟩ := ih acc1 acc' heq
      refine ⟨hsub1.trans hsub2, ?_⟩
      intro v
      rw [hiff2 v, hiff1 v]
      constructor
      · rintro ((hv | hp) | ⟨e, he, hp⟩)
        · exact Or.inl hv
        · exact Or.inr ⟨d, List.mem_cons_self _ _, hp⟩
        · exact Or.inr ⟨e, List.mem_cons_of_mem _ he, hp⟩
      · rintro (hv | ⟨e, he, hp⟩)
        · exact Or.inl (Or.inl hv)
        · rcases List.mem_cons.mp he with rfl | he'
          · exact Or.inl (Or.inr hp)
          · exact Or.inr ⟨e, he', hp⟩
    next e hcall => simp at heq
    next msg hcall => simp at heq
    next hcall => simp at heq

lemma gu_visit_ok {g : BazelDependencyGraph} {S : Finset String} :
    ∀ fuel, GuStepOk g S (fun d acc => get_unique_deps_visit g S fuel d acc) := by
  intro fuel
  induction fuel with
  | zero =>
    intro d acc acc' heq
    change get_unique_deps_visit g S 0 d acc = _ at heq
    rw [get_unique_deps_visit] at heq
    simp at heq
  | succ fuel ih =>
    intro d acc acc' heq
    change get_unique_deps_visit g S (fuel + 1) d acc = _ at heq
    rw [get_unique_deps_visit] at heq
    by_cases hdS : d ∈ S
    · rw [if_pos hdS] at heq
      injection heq with h
      subst h
      refine ⟨Finset.Subset.refl _, ?_⟩
      intro v
      constructor
      · exact Or.inl
      · rintro (hv | ⟨hdnot, -⟩)
        · exact hv
        · exact absurd hdS hdnot
    · rw [if_neg hdS] at heq
      cases hrule : g.rules_by_label.lookup d with
      | none =>
        rw [hrule] at heq
        simp at heq
      | some rule =>
        rw [hrule] at heq
        obtain ⟨hsub, hiff⟩ := gu_loop_ok ih rule.dep_targets (insert d acc) acc' heq
        have hdeps : depsD g d = rule.dep_targets := by
          unfold depsD
          rw [show ruleOf g d = some rule from hrule]
          rfl
        refine ⟨(Finset.subset_insert _ _).trans hsub, ?_⟩
        intro v
        rw [hiff v, Finset.mem_insert, ← hdeps]
        unfold AvoidPath
        constructor
        · rintro ((rfl | hv) | ⟨e, he, henot, hr⟩)
          · exact Or.inr ⟨hdS, Relation.ReflTransGen.refl⟩
          · exact Or.inl hv
          · exact Or.inr ⟨hdS, Relation.ReflTransGen.head ⟨he, henot⟩ hr⟩
        · rintro (hv | ⟨hdnot, hr⟩)
          · exact Or.inl (Or.inr hv)
          · rcases Relation.ReflTransGen.cases_head hr with heq' | ⟨c, ⟨hc, hcnot⟩, hcx⟩
            · exact Or.inl (Or.inl heq'.symm)
            · exact Or.inr ⟨c, hc, hcnot, hcx⟩

/-- A successful `get_unique_deps` call collects exactly the labels
reachable from the starting dependency along paths avoiding the
duplicate set. -/
lemma gu_ok_iff {g : BazelDependencyGraph} {S : Finset String} {fuel : Nat}
    {dep : String} {u : Finset String}
    (heq : get_unique_deps g fuel dep S = .ok u) :
    ∀ v, v ∈ u ↔ AvoidPath g S dep v := by
  intro v
  obtain ⟨-, hiff⟩ := gu_visit_ok fuel dep ∅ u heq
  rw [hiff v]
  constructor
  · rintro (hv | hp)
    · exact absurd hv (Finset.not_mem_empty v)
    · exact hp
  · exact Or.inr

/-- When a node `y` on a duplicate-avoiding path is also reachable via a
second immediate dependency `d2` of the seed, it has two distinct
incoming edges inside the closure and is therefore a duplicate. -/
lemma merge_point_in_dups {g : BazelDependencyGraph}
    {S d2 p y : String} {dups : Finset String}
    (hiff : ∀ v, v ∈ dups ↔ 2 ≤ inDegreeInClosure g S v)
    (hd2 : d2 ∈ depsD g S)
    (hp : p ∈ reachClos g S) (hpnot : ¬ Reach g d2 p)
    (hedge : y ∈ depsD g p) (hy2 : Reach g d2 y)
    (hcase : y ≠ d2 ∨ p ≠ S) :
    y ∈ dups := by
  refine (hiff y).mpr ?_
  have hq : ∃ q, q ∈ reachClos g S ∧ q ≠ p ∧ y ∈ depsD g q := by
    rcases Relation.ReflTransGen.cases_tail hy2 with heq' | ⟨u, hu, hstep⟩
    · refine ⟨S, mem_reachClos_self, ?_, by rw [heq']; exact hd2⟩
      rcases hcase with hy | hpS
      · exact absurd heq' hy
      · exact fun h => hpS h.symm
    · refine ⟨u, ?_, ?_, hstep⟩
      · exact mem_reachClos_iff.mpr (Relation.ReflTransGen.head hd2 hu)
      · intro h
        subst h
        exact hpnot hu
  obtain ⟨q, hqc, hqp, hqy⟩ := hq
  unfold inDegreeInClosure
  have hsub : ({p, q} : Finset String) ⊆ reachClos g S := by
    intro x hx
    rcases Finset.mem_insert.mp hx with rfl | hx
    · exact hp
    · rw [Finset.mem_singleton] at hx
      subst hx
      exact hqc
  have hpair : Finset.sum ({p, q} : Finset String) (fun u => (depsD g u).count y) ≤
      Finset.sum (reachClos g S) (fun u => (depsD g u).count y) :=
    Finset.sum_le_sum_of_subset hsub
  rw [Finset.sum_pair (Ne.symm hqp)] at hpair
  have h1 := List.count_pos_iff.mpr hedge
  have h2 := List.count_pos_iff.mpr hqy
  omega

/-- Along a duplicate-avoiding path out of the immediate dependency `d1`
of the seed, no node is ever reachable from a different immediate
dependency `d2` (otherwise the first such node would be a duplicate and
the path could not pass through it). -/
lemma avoid_path_inv {g : BazelDependencyGraph} {r : String → Nat}
    {S d1 d2 : String} {dups : Finset String}
    (hrank : RankOk g r)
    (hiff : ∀ v, v ∈ dups ↔ 2 ≤ inDegreeInClosure g S v)
    (hd1 : d1 ∈ depsD g S) (hd2 : d2 ∈ depsD g S) (hne : d1 ≠ d2)
    (hd1nd : d1 ∉ dups) :
    ∀ x, Relation.ReflTransGen (AvoidStep g dups) d1 x →
      Reach g d1 x ∧ x ∈ reachClos g S ∧ ¬ Reach g d2 x := by
  have hnS : ¬ Reach g d2 S := by
    intro h
    have h1 : r S ≤ r d2 := rank_le_of_reach hrank h
    have h2 : r d2 < r S := rank_lt_of_step hrank hd2
    omega
  intro x hx
  induction hx with
  | refl =>
    refine ⟨Relation.ReflTransGen.refl,
      mem_reachClos_iff.mpr (Relation.ReflTransGen.head hd1 Relation.ReflTransGen.refl), ?_⟩
    intro hr21
    exact hd1nd (merge_point_in_dups hiff hd2 mem_reachClos_self hnS
      hd1 hr21 (Or.inl hne))
  | @tail b c hab hstep ih =>
    obtain ⟨hr1b, hbc, hnb⟩ := ih
    obtain ⟨hstepd, hcnot⟩ := hstep
    refine ⟨Relation.ReflTransGen.tail hr1b hstepd,
      mem_reachClos_iff.mpr
        (Relation.ReflTransGen.tail (mem_reachClos_iff.mp hbc) hstepd), ?_⟩
    intro hr2c
    have hbS : b ≠ S := by
      intro hbS'
      rw [hbS'] at hr1b
      have h1 : r S ≤ r d1 := rank_le_of_reach hrank hr1b
      have h2 : r d1 < r S := rank_lt_of_step hrank hd1
      omega
    exact hcnot (merge_point_in_dups hiff hd2 hbc hnb hstepd hr2c (Or.inr hbS))

/-- C5, amended: on an acyclic graph, when `D` is reachable through two
distinct immediate dependencies `d1` and `d2` of the seed `S`, `D`
appears in NEITHER unique subtree (the original claim's further
assertion that `D` itself lands in the duplicate set is refuted by
`C5_counterexample`: only the merge node must). -/
theorem C5_diamond_unique_subtrees (g : BazelDependencyGraph) (r : String → Nat)
    (fuel fuel' : Nat) (S d1 d2 D : String) (dups u1 u2 : Finset String)
    (hrank : RankOk g r)
    (hfd : find_duplicate_deps g fuel S = .ok dups)
    (hd1 : d1 ∈ depsD g S) (hd2 : d2 ∈ depsD g S) (hne : d1 ≠ d2)
    (hr1 : Reach g d1 D) (hr2 : Reach g d2 D)
    (hu1 : get_unique_deps g fuel' d1 dups = .ok u1)
    (hu2 : get_unique_deps g fuel' d2 dups = .ok u2) :
    D ∉ u1 ∧ D ∉ u2 := by
  have hiff := fd_dups_iff hrank hfd
  constructor
  · intro hD
    obtain ⟨hd1nd, hpath⟩ := (gu_ok_iff hu1 D).mp hD
    obtain ⟨-, -, hnot⟩ := avoid_path_inv hrank hiff hd1 hd2 hne hd1nd D hpath
    exact hnot hr2
  · intro hD
    obtain ⟨hd2nd, hpath⟩ := (gu_ok_iff hu2 D).mp hD
    obtain ⟨-, -, hnot⟩ := avoid_path_inv hrank hiff hd2 hd1 hne.symm hd2nd D hpath
    exact hnot hr1

/-- Counterexample to C5 as stated: in `g5` the target `"D"` is
reachable from the seed `"s"` through both immediate dependencies
`"d1"` and `"d2"`, the graph is acyclic and fully present, yet the
duplicate set is `{"x"}` (the merge node) and does not contain `"D"`. -/
theorem C5_counterexample :
    RankOk g5 rank5 ∧ ClosedGraph g5 ∧
    "d1" ∈ depsD g5 "s" ∧ "d2" ∈ depsD g5 "s" ∧ "d1" ≠ "d2" ∧
    Reach g5 "d1" "D" ∧ Reach g5 "d2" "D" ∧
    find_duplicate_deps g5 9 "s" = .ok {"x"} ∧ "D" ∉ ({"x"} : Finset String) := by
  refine ⟨by decide, by decide, by decide, by decide, by decide, ?_, ?_, by decide, by decide⟩
  · exact Relation.ReflTransGen.head (b := "x") (by decide)
      (Relation.ReflTransGen.head (b := "D") (by decide) Relation.ReflTransGen.refl)
  · exact Relation.ReflTransGen.head (b := "x") (by decide)
      (Relation.ReflTransGen.head (b := "D") (by decide) Relation.ReflTransGen.refl)

/-- Witness for the amended C5 on `g5`: `"D"` is in neither unique
subtree. -/
theorem C5_witness :
    find_duplicate_deps g5 9 "s" = .ok {"x"} ∧
    get_unique_deps g5 9 "d1" {"x"} = .ok {"d1"} ∧
    get_unique_deps g5 9 "d2" {"x"} = .ok {"d2"} ∧
    ("D" ∉ ({"d1"} : Finset String) ∧ "D" ∉ ({"d2"} : Finset String)) :=
  ⟨by decide, by decide, by decide,
   C5_diamond_unique_subtrees g5 rank5 9 9 "s" "d1" "d2" "D" {"x"} {"d1"} {"d2"}
     (by decide) (by decide) (by decide) (by decide) (by decide)
     (Relation.ReflTransGen.head (b := "x") (by decide)
       (Relation.ReflTransGen.head (b := "D") (by decide) Relation.ReflTransGen.refl))
     (Relation.ReflTransGen.head (b := "x") (by decide)
       (Relation.ReflTransGen.head (b := "D") (by decide) Relation.ReflTransGen.refl))
     (by decide) (by decide)⟩

lemma fd_loop_total {g : BazelDependencyGraph} {r : String → Nat} {fuel : Nat}
    (hvis : ∀ d seen dups, (ruleOf g d).isSome → r d < fuel →
      ∃ out, find_duplicate_deps_visit g fuel d seen dups = .ok out) :
    ∀ (L : List String) (seen dups : Finset String),
      (∀ d ∈ L, (ruleOf g d).isSome ∧ r d < fuel) →
      ∃ out, find_duplicate_deps_loop
        (fun d s dp => find_duplicate_deps_visit g fuel d s dp) L seen dups = .ok out := by
  intro L
  induction L with
  | nil =>
    intro seen dups _
    exact ⟨(seen, dups), by rw [find_duplicate_deps_loop]⟩
  | cons d rest ih =>
    intro seen dups hall
    by_cases hds : d ∈ seen
    · obtain ⟨out, hout⟩ := ih seen (insert d dups)
        (fun x hx => hall x (List.mem_cons_of_mem _ hx))
      exact ⟨out, by rw [find_duplicate_deps_loop, if_pos hds]; exact hout⟩
    · obtain ⟨hdrule, hdlt⟩ := hall d (List.mem_cons_self _ _)
      obtain ⟨out1, hout1⟩ := hvis d (insert d seen) dups hdrule hdlt
      rcases out1 with ⟨seen₁, dups₁⟩
      obtain ⟨out, hout⟩ := ih seen₁ dups₁
        (fun x hx => hall x (List.mem_cons_of_mem _ hx))
      refine ⟨out, ?_⟩
      rw [find_duplicate_deps_loop, if_neg hds, hout1]
      exact hout

lemma fd_visit_total {g : BazelDependencyGraph} {r : String → Nat}
    (hrank : RankOk g r) (hclosed : ClosedGraph g) :
    ∀ fuel d seen dups, (ruleOf g d).isSome → r d < fuel →
      ∃ out, find_duplicate_deps_visit g fuel d seen dups = .ok out := by
  intro fuel
  induction fuel with
  | zero =>
    intro d seen dups _ h
    omega
  | succ fuel ih =>
    intro d seen dups hrule hlt
    rcases Option.isSome_iff_exists.mp hrule with ⟨rule, hlook⟩
    have hall : ∀ x ∈ rule.dep_targets, (ruleOf g x).isSome ∧ r x < fuel := by
      intro x hx
      refine ⟨hclosed (d, rule) (lookup_mem hlook) x hx, ?_⟩
      have hlt2 : r x < r d := hrank (d, rule) (lookup_mem hlook) x hx
      omega
    obtain ⟨out, hout⟩ := fd_loop_total ih rule.dep_targets seen dups hall
    refine ⟨out, ?_⟩
    rw [find_duplicate_deps_visit,
      show g.rules_by_label.lookup d = some rule from hlook]
    exact hout

/-- On an acyclic, fully-present graph with a present seed,
`find_duplicate_deps` succeeds (given enough fuel in the embedding). -/
lemma fd_total {g : BazelDependencyGraph} {r : String → Nat} {fuel : Nat} {T : String}
    (hrank : RankOk g r) (hclosed : ClosedGraph g)
    (hrule : (ruleOf g T).isSome) (hlt : r T < fuel) :
    ∃ dups, find_duplicate_deps g fuel T = .ok dups := by
  obtain ⟨⟨seen', dups'⟩, hout⟩ := fd_visit_total hrank hclosed fuel T ∅ ∅ hrule hlt
  refine ⟨dups', ?_⟩
  unfold find_duplicate_deps
  rw [hout]

lemma gu_loop_total {g : BazelDependencyGraph} {S : Finset String} {r : String → Nat}
    {fuel : Nat}
    (hvis : ∀ d acc, (ruleOf g d).isSome → r d < fuel →
      ∃ acc', get_unique_deps_visit g S fuel d acc = .ok acc') :
    ∀ (L : List String) (acc : Finset String),
      (∀ d ∈ L, (ruleOf g d).isSome ∧ r d < fuel) →
      ∃ acc', get_unique_deps_loop
        (fun d a => get_unique_deps_visit g S fuel d a) L acc = .ok acc' := by
  intro L
  induction L with
  | nil =>
    intro acc _
    exact ⟨acc, by rw [get_unique_deps_loop]⟩
  | cons d rest ih =>
    intro acc hall
    obtain ⟨h1, h2⟩ := hall d (List.mem_cons_self _ _)
    obtain ⟨acc1, hacc1⟩ := hvis d acc h1 h2
    obtain ⟨acc', hacc'⟩ := ih acc1 (fun x hx => hall x (List.mem_cons_of_mem _ hx))
    refine ⟨acc', ?_⟩
    rw [get_unique_deps_loop, hacc1]
    exact hacc'

lemma gu_visit_total {g : BazelDependencyGraph} {S : Finset String} {r : String → Nat}
    (hrank : RankOk g r) (hclosed : ClosedGraph g) :
    ∀ fuel d acc, (ruleOf g d).isSome → r d < fuel →
      ∃ acc', get_unique_deps_visit g S fuel d acc = .ok acc' := by
  intro fuel
  induction fuel with
  | zero =>
    intro d acc _ h
    omega
  | succ fuel ih =>
    intro d acc hrule hlt
    by_cases hdS : d ∈ S
    · exact ⟨acc, by rw [get_unique_deps_visit, if_pos hdS]⟩
    · rcases Option.isSome_iff_exists.mp hrule with ⟨rule, hlook⟩
      have hall : ∀ x ∈ rule.dep_targets, (ruleOf g x).isSome ∧ r x < fuel := by
        intro x hx
        refine ⟨hclosed (d, rule) (lookup_mem hlook) x hx, ?_⟩
        have hlt2 : r x < r d := hrank (d, rule) (lookup_mem hlook) x hx
        omega
      obtain ⟨acc', hacc'⟩ := gu_loop_total ih rule.dep_targets (insert d acc) hall
      refine ⟨acc', ?_⟩
      rw [get_unique_deps_visit, if_neg hdS,
        show g.rules_by_label.lookup d = some rule from hlook]
      exact hacc'

lemma mu_loop_total {g : BazelDependencyGraph} {r : String → Nat} {fuel : Nat}
    {scores : List (String × ResolvedTarget)} {dups : Finset String}
    (hrank : RankOk g r) (hclosed : ClosedGraph g) :
    ∀ (L : List String), (∀ d ∈ L, (ruleOf g d).isSome ∧ r d < fuel) →
      ∃ deps, most_unique_triggers_loop g fuel scores dups L = .ok deps := by
  intro L
  induction L with
  | nil => exact fun _ => ⟨[], by rw [most_unique_triggers_loop]⟩
  | cons d rest ih =>
    intro hall
    obtain ⟨deps', hdeps'⟩ := ih (fun x hx => hall x (List.mem_cons_of_mem _ hx))
    by_cases hdS : d ∈ dups
    · exact ⟨deps', by rw [most_unique_triggers_loop, if_pos hdS]; exact hdeps'⟩
    · obtain ⟨h1, h2⟩ := hall d (List.mem_cons_self _ _)
      obtain ⟨u, hu⟩ := gu_visit_total hrank hclosed fuel d ∅ h1 h2
      refine ⟨(⟨d, (u.biUnion (fun l =>
          match scores.lookup l with
          | some dep_score => dep_score.commits
          | none => ∅)).card⟩ : Dependency) :: deps', ?_⟩
      rw [most_unique_triggers_loop, if_neg hdS,
        show get_unique_deps g fuel d dups = .ok u from hu]
      dsimp only
      rw [hdeps']

/-- Every seed produced by the wildcard expansion (or the seed itself in
the non-wildcard case, given it is present) has a rule. -/
lemma seedTargets_present {g : BazelDependencyGraph} {target : String}
    (hrule : (ruleOf g target).isSome) :
    ∀ s ∈ seedTargets g target, (ruleOf g s).isSome := by
  intro s hs
  rw [seedTargets] at hs
  by_cases hw : strEndsWith target "..." = true
  · rw [if_pos hw] at hs
    exact lookup_isSome_iff_mem_keys.mpr (List.mem_of_mem_filter hs)
  · rw [if_neg hw] at hs
    rcases List.mem_singleton.mp hs with rfl
    exact hrule

/-- On an acyclic, fully-present, well-sourced graph with a present
seed, `calculate_trigger_scores` cannot fail. -/
lemma calculate_ok_total {repo : GitRepo} {g : BazelDependencyGraph}
    {r : String → Nat} {fuel : Nat} {target : String}
    (hrank : RankOk g r) (hgood : GoodSources repo g) (hclosed : ClosedGraph g)
    (hrule : (ruleOf g target).isSome) (hfuel : ∀ l, r l < fuel)
    (hwildlen : strEndsWith target "..." = true → 4 ≤ strLength target) :
    ∃ m, calculate_trigger_scores repo g fuel target = .ok m := by
  rcases calculate_total hrank hgood hfuel hwildlen with h | ⟨e, he⟩
  · exact h
  · exfalso
    obtain ⟨x, -, hnone, s, hs, hr⟩ := calculate_err_spec he
    have hx := closed_reach_present hclosed (seedTargets_present hrule s hs) hr
    rw [hnone] at hx
    simp at hx

/-- C9: duplicate entries in dependency lists are harmless: on an
acyclic, fully-present, well-sourced graph with a present seed (and
enough fuel in the embedding), both `calculate_trigger_scores` and
`most_unique_triggers` return successfully (no error, no panic), and a
label listed at least twice in the seed's own dependency list always
ends up in the duplicate set. -/
theorem C9_duplicate_listings_safe (repo : GitRepo) (g : BazelDependencyGraph)
    (r : String → Nat) (fuel : Nat) (target : String)
    (hrank : RankOk g r) (hclosed : ClosedGraph g) (hgood : GoodSources repo g)
    (hrule : (ruleOf g target).isSome) (hfuel : ∀ l, r l < fuel)
    (hwildlen : strEndsWith target "..." = true → 4 ≤ strLength target) :
    (∃ m, calculate_trigger_scores repo g fuel target = .ok m) ∧
    (∃ deps, most_unique_triggers repo g fuel target = .ok deps) ∧
    (∀ dups, find_duplicate_deps g fuel target = .ok dups →
      ∀ d, 2 ≤ List.count d (depsD g target) → d ∈ dups) := by
  obtain ⟨m, hm⟩ := calculate_ok_total hrank hgood hclosed hrule hfuel hwildlen
  refine ⟨⟨m, hm⟩, ?_, ?_⟩
  · rcases Option.isSome_iff_exists.mp hrule with ⟨rule, hlook⟩
    obtain ⟨dups, hdups⟩ := fd_total hrank hclosed hrule (hfuel target)
    have hall : ∀ d ∈ rule.dep_targets, (ruleOf g d).isSome ∧ r d < fuel :=
      fun d hd => ⟨hclosed (target, rule) (lookup_mem hlook) d hd, hfuel d⟩
    obtain ⟨deps0, hdeps0⟩ := mu_loop_total hrank hclosed rule.dep_targets hall
    refine ⟨List.insertionSort descendingByScore deps0, ?_⟩
    unfold most_unique_triggers
    rw [hm]
    dsimp only
    rw [show g.rules_by_label.lookup target = some rule from hlook]
    dsimp only
    rw [hdups]
    dsimp only
    rw [hdeps0]
  · intro dups hfd d hcnt
    exact fd_double_listed hfd d hcnt

/-- Witness for C9 on `gDup` (seed `"a"` lists `"b"` twice): everything
still succeeds and `"b"` is classified as a duplicate. -/
theorem C9_witness :
    (2 ≤ List.count "b" (depsD gDup "a") ∧
      find_duplicate_deps gDup 3 "a" = .ok {"b"}) ∧
    ((∃ m, calculate_trigger_scores repoEmpty gDup 3 "a" = .ok m) ∧
     (∃ deps, most_unique_triggers repoEmpty gDup 3 "a" = .ok deps) ∧
     (∀ dups, find_duplicate_deps gDup 3 "a" = .ok dups →
       ∀ d, 2 ≤ List.count d (depsD gDup "a") → d ∈ dups)) :=
  ⟨⟨by decide, by decide⟩,
   C9_duplicate_listings_safe repoEmpty gDup rankDup 3 "a"
     (by decide) (by decide) (by decide) (by decide)
     (fun l => by
       unfold rankDup
       by_cases h : l = "a"
       · rw [if_pos h]
         omega
       · rw [if_neg h]
         omega)
     (by decide)⟩

lemma mu_loop_spec {g : BazelDependencyGraph} {fuel : Nat}
    {scores : List (String × ResolvedTarget)} {dups : Finset String} :
    ∀ (L : List String) (deps0 : List Dependency),
      most_unique_triggers_loop g fuel scores dups L = .ok deps0 →
      deps0.map Dependency.name = L.filter (fun d => !(decide (d ∈ dups))) ∧
      ∀ dp ∈ deps0, dp.name ∉ dups ∧
        ∃ u, get_unique_deps g fuel dp.name dups = .ok u ∧
          dp.score = (u.biUnion (scoreCommits scores)).card := by
  intro L
  induction L with
  | nil =>
    intro deps0 heq
    rw [most_unique_triggers_loop] at heq
    injection heq with h
    subst h
    exact ⟨rfl, by simp⟩
  | cons dep rest ih =>
    intro deps0 heq
    rw [most_unique_triggers_loop] at heq
    by_cases hd : dep ∈ dups
    · rw [if_pos hd] at heq
      obtain ⟨hmap, hall⟩ := ih deps0 heq
      refine ⟨?_, hall⟩
      rw [hmap, List.filter_cons]
      simp [hd]
    · rw [if_neg hd] at heq
      split at heq
      next u hu =>
        dsimp only at heq
        split at heq
        next deps1 hloop =>
          injection heq with h
          subst h
          obtain ⟨hmap, hall⟩ := ih deps1 hloop
          constructor
          · rw [List.map_cons, hmap, List.filter_cons]
            simp [hd]
          · intro dp hdp
            rcases List.mem_cons.mp hdp with rfl | hdp'
            · exact ⟨hd, u, hu, rfl⟩
            · exact hall dp hdp'
        next e hloop => simp at heq
        next msg hloop => simp at heq
        next hloop => simp at heq
      next e hu => simp at heq
      next msg hu => simp at heq
      next hu => simp at heq

lemma mu_ok_decompose {repo : GitRepo} {g : BazelDependencyGraph} {fuel : Nat}
    {target : String} {deps : List Dependency}
    (heq : most_unique_triggers repo g fuel target = .ok deps) :
    ∃ m rule dups deps0,
      calculate_trigger_scores repo g fuel target = .ok m ∧
      ruleOf g target = some rule ∧
      find_duplicate_deps g fuel target = .ok dups ∧
      most_unique_triggers_loop g fuel m dups rule.dep_targets = .ok deps0 ∧
      deps = List.insertionSort descendingByScore deps0 := by
  unfold most_unique_triggers at heq
  split at heq
  next m hcalc =>
    split at heq
    next hlook => simp at heq
    next rule hlook =>
      split at heq
      next dups hfd =>
        split at heq
        next deps0 hloop =>
          injection heq with h
          exact ⟨m, rule, dups, deps0, hcalc, hlook, hfd, hloop, h.symm⟩
        next e hloop => simp at heq
        next msg hloop => simp at heq
        next hloop => simp at heq
      next e hfd => simp at heq
      next msg hfd => simp at heq
      next hfd => simp at heq
  next e hcalc => simp at heq
  next msg hcalc => simp at heq
  next hcalc => simp at heq

lemma charsStartWith_take : ∀ (l : List Char) (k : Nat),
    charsStartWith l (l.take k) = true := by
  intro l
  induction l with
  | nil =>
    intro k
    cases k <;> rfl
  | cons a s ih =>
    intro k
    cases k with
    | zero => rfl
    | succ k =>
      show (a == a && charsStartWith s (s.take k)) = true
      rw [ih k]
      simp

/-- A present target always belongs to its own seed expansion: literally
in the non-wildcard case, and by matching its own prefix in the wildcard
case. -/
lemma target_mem_seedTargets {g : BazelDependencyGraph} {target : String}
    (hrule : (ruleOf g target).isSome) :
    target ∈ seedTargets g target := by
  rw [seedTargets]
  by_cases hw : strEndsWith target "..." = true
  · rw [if_pos hw]
    refine List.mem_filter.mpr ⟨lookup_isSome_iff_mem_keys.mp hrule, ?_⟩
    exact charsStartWith_take target.data _
  · rw [if_neg hw]
    exact List.mem_singleton_self _

/-- Every label reachable from a present seed has a score-table entry
whose stored commit set is exactly its own specific commits. -/
lemma scores_commits_specific {repo : GitRepo} {g : BazelDependencyGraph} {fuel : Nat}
    {target : String} {m : List (String × ResolvedTarget)}
    (heq : calculate_trigger_scores repo g fuel target = .ok m)
    (hrel : (ruleOf g target).isSome) :
    ∀ x, Reach g target x → scoreCommits m x = specific_commits g repo x := by
  intro x hr
  obtain ⟨hfacts, hcover⟩ := calculate_ok_spec heq
  have hex : ∃ rt, (x, rt) ∈ m :=
    (hcover x).mpr ⟨target, target_mem_seedTargets hrel, hr⟩
  have hsome : (m.lookup x).isSome := by
    rcases hex with ⟨rt, hrt⟩
    exact lookup_isSome_iff_mem_keys.mpr (List.mem_map.mpr ⟨(x, rt), hrt, rfl⟩)
  rcases Option.isSome_iff_exists.mp hsome with ⟨rt', hrt'⟩
  obtain ⟨-, -, e, hre, hctf⟩ := hfacts (x, rt') (lookup_mem hrt')
  have hre' : ruleOf g x = some e := hre
  have hc' : rt'.commits = spec_commits_of_files repo e.source_files :=
    commits_touching_files_eq_spec hctf
  unfold scoreCommits
  rw [hrt']
  unfold specific_commits
  rw [hre']
  exact hc'

/-- Among the seed's immediate dependencies, those surviving the
duplicate filter are pairwise distinct (a label listed twice is always
classified as a duplicate), so the ranker emits exactly one candidate
per qualifying immediate dependency. -/
lemma filter_nodup_of_double_dup {g : BazelDependencyGraph} {fuel : Nat}
    {T : String} {dups : Finset String}
    (hfd : find_duplicate_deps g fuel T = .ok dups) :
    ((depsD g T).filter (fun d => !(decide (d ∈ dups)))).Nodup := by
  rw [List.nodup_iff_count_le_one]
  intro a
  by_cases ha : a ∈ dups
  · have hz : List.count a ((depsD g T).filter (fun d => !(decide (d ∈ dups)))) = 0 := by
      rw [List.count_eq_zero]
      intro hmem
      have hp := List.of_mem_filter hmem
      simp at hp
      exact hp ha
    omega
  · have h2 : List.count a (depsD g T) ≤ 1 := by
      by_contra hgt
      push_neg at hgt
      exact ha (fd_double_listed hfd a (by omega))
    exact le_trans (List.Sublist.count_le (List.filter_sublist _) a) h2

/-- C6: a successful `most_unique_triggers` run returns a list sorted by
descending score whose candidate names are exactly the seed's immediate
dependencies outside the duplicate set (one candidate each, never a
duplicated one), and each candidate's score is the size of the union of
the specific commit sets over its unique subtree (the labels reachable
from it along duplicate-avoiding paths). -/
theorem C6_most_unique_triggers_shape (repo : GitRepo) (g : BazelDependencyGraph)
    (fuel : Nat) (target : String) (deps : List Dependency)
    (heq : most_unique_triggers repo g fuel target = .ok deps) :
    List.Sorted descendingByScore deps ∧
    ∃ dups, find_duplicate_deps g fuel target = .ok dups ∧
      (deps.map Dependency.name).Perm
        ((depsD g target).filter (fun d => !(decide (d ∈ dups)))) ∧
      (deps.map Dependency.name).Nodup ∧
      ∀ dp ∈ deps, dp.name ∉ dups ∧
        ∃ u, get_unique_deps g fuel dp.name dups = .ok u ∧
          (∀ v, v ∈ u ↔ AvoidPath g dups dp.name v) ∧
          dp.score = (u.biUnion (specific_commits g repo)).card := by
  obtain ⟨m, rule, dups, deps0, hcalc, hlook, hfd, hloop, hsort⟩ := mu_ok_decompose heq
  have hdeps : depsD g target = rule.dep_targets := by
    unfold depsD
    rw [hlook]
    rfl
  obtain ⟨hmap, hall⟩ := mu_loop_spec rule.dep_targets deps0 hloop
  subst hsort
  have hperm : ((List.insertionSort descendingByScore deps0).map Dependency.name).Perm
      ((depsD g target).filter (fun d => !(decide (d ∈ dups)))) := by
    have hp := (List.perm_insertionSort descendingByScore deps0).map Dependency.name
    rw [hmap, ← hdeps] at hp
    exact hp
  refine ⟨List.sorted_insertionSort _ _, dups, hfd, hperm,
    (hperm.nodup_iff).mpr (filter_nodup_of_double_dup hfd), ?_⟩
  intro dp hdp
  have hdp0 : dp ∈ deps0 :=
    (List.perm_insertionSort descendingByScore deps0).mem_iff.mp hdp
  obtain ⟨hnotd, u, hu, hscore⟩ := hall dp hdp0
  refine ⟨hnotd, u, hu, gu_ok_iff hu, ?_⟩
  rw [hscore]
  congr 1
  refine Finset.biUnion_congr rfl ?_
  intro l hl
  have hname : dp.name ∈ rule.dep_targets := by
    have hmem : dp.name ∈ deps0.map Dependency.name := List.mem_map.mpr ⟨dp, hdp0, rfl⟩
    rw [hmap] at hmem
    exact (List.mem_filter.mp hmem).1
  obtain ⟨-, hrtg⟩ := (gu_ok_iff hu l).mp hl
  have hreach : Reach g target l :=
    Relation.ReflTransGen.head
      (show DepStep g target dp.name by unfold DepStep; rw [hdeps]; exact hname)
      (Relation.ReflTransGen.mono (fun a b h => h.1) hrtg)
  exact scores_commits_specific hcalc (by rw [hlook]; rfl) l hreach

/-- Witness for C6 on the diamond graph: the ranker returns
`[("b", 1), ("c", 0)]`, sorted descending, skipping nothing but the
duplicate-free immediate dependencies (none of `"b"`, `"c"` is a
duplicate; `"d"` is but is not immediate). -/
theorem C6_witness :
    most_unique_triggers repoDiamond gDiamond 9 "a" = .ok [⟨"b", 1⟩, ⟨"c", 0⟩] ∧
    (List.Sorted descendingByScore ([⟨"b", 1⟩, ⟨"c", 0⟩] : List Dependency) ∧
     ∃ dups, find_duplicate_deps gDiamond 9 "a" = .ok dups ∧
       (([⟨"b", 1⟩, ⟨"c", 0⟩] : List Dependency).map Dependency.name).Perm
         ((depsD gDiamond "a").filter (fun d => !(decide (d ∈ dups)))) ∧
       (([⟨"b", 1⟩, ⟨"c", 0⟩] : List Dependency).map Dependency.name).Nodup ∧
       ∀ dp ∈ ([⟨"b", 1⟩, ⟨"c", 0⟩] : List Dependency), dp.name ∉ dups ∧
         ∃ u, get_unique_deps gDiamond 9 dp.name dups = .ok u ∧
           (∀ v, v ∈ u ↔ AvoidPath gDiamond dups dp.name v) ∧
           dp.score = (u.biUnion (specific_commits gDiamond repoDiamond)).card) :=
  ⟨by decide,
   C6_most_unique_triggers_shape repoDiamond gDiamond 9 "a" [⟨"b", 1⟩, ⟨"c", 0⟩]
     (by decide)⟩
